import Mathlib

/-!
Verification of the recettes-app dual-backend data layer and recipe parser.

The definitions below are shallow embeddings of the TypeScript sources:
  - src/lib/services/recipeParser.ts  (quantity/unit/servings parsing, JSON-LD extraction)
  - src/lib/services/storage.ts       (local IndexedDB adapter)
  - the GitHub storage service        (remote adapter: getData/saveData and the
                                       conflict-retry protocol)
  - src/lib/services/dataService.ts   (unified service and migration)

JavaScript numbers are modelled by `JSNum` (NaN, signed infinity, or a finite
rational); machine floating point is approximated by exact rationals, which is
sound for the decimal/fraction arithmetic the claims are about.
-/

namespace Recettes

/-- Model of a JavaScript number: NaN, a signed infinity, or a finite value
(approximated by an exact rational). -/
inductive JSNum where
  | nan : JSNum
  | inf (neg : Bool) : JSNum
  | fin (q : Rat) : JSNum
deriving DecidableEq

/-- JS truthiness of a number: NaN and 0 are falsy, everything else truthy. -/
def jsTruthy : JSNum → Bool
  | JSNum.nan => false
  | JSNum.inf _ => true
  | JSNum.fin q => q != 0

/-- JS addition on numbers. -/
def jsAdd : JSNum → JSNum → JSNum
  | JSNum.nan, _ => JSNum.nan
  | _, JSNum.nan => JSNum.nan
  | JSNum.inf a, JSNum.inf b => if a = b then JSNum.inf a else JSNum.nan
  | JSNum.inf a, JSNum.fin _ => JSNum.inf a
  | JSNum.fin _, JSNum.inf b => JSNum.inf b
  | JSNum.fin a, JSNum.fin b => JSNum.fin (a + b)

/-- JS division on numbers (x/0 is a signed infinity, 0/0 is NaN). -/
def jsDiv : JSNum → JSNum → JSNum
  | JSNum.nan, _ => JSNum.nan
  | _, JSNum.nan => JSNum.nan
  | JSNum.inf _, JSNum.inf _ => JSNum.nan
  | JSNum.inf a, JSNum.fin b => JSNum.inf (a != decide (b < 0))
  | JSNum.fin _, JSNum.inf _ => JSNum.fin 0
  | JSNum.fin a, JSNum.fin b =>
    if b = 0 then (if a = 0 then JSNum.nan else JSNum.inf (decide (a < 0)))
    else JSNum.fin (a / b)

/-- ASCII decimal digit test. -/
def isDigitCh (c : Char) : Bool := decide ('0' ≤ c) && decide (c ≤ '9')

/-- ASCII hexadecimal digit test. -/
def isHexCh (c : Char) : Bool :=
  isDigitCh c || (decide ('a' ≤ c) && decide (c ≤ 'f')) ||
  (decide ('A' ≤ c) && decide (c ≤ 'F'))

/-- JS whitespace characters (the ones relevant to `trim`, `parseFloat`,
`parseInt` and `\s`): space, tab, LF, CR, VT, FF, NBSP, BOM and the
Unicode line and paragraph separators. -/
def isJsWs (c : Char) : Bool :=
  c.toNat = 32 || c.toNat = 9 || c.toNat = 10 || c.toNat = 13 ||
  c.toNat = 11 || c.toNat = 12 || c.toNat = 160 ||
  c.toNat = 0xfeff || c.toNat = 0x2028 || c.toNat = 0x2029

/-- Numeric value of a list of ASCII digit characters, most significant first. -/
def digitsValC (cs : List Char) : Nat :=
  cs.foldl (fun a c => 10 * a + (c.toNat - 48)) 0

/-- Consume an optional leading sign; returns (isNegative, rest). -/
def readSign : List Char → Bool × List Char
  | [] => (false, [])
  | c :: cs =>
    if c = '-' then (true, cs)
    else if c = '+' then (false, cs)
    else (false, c :: cs)

/-- Case-sensitive literal test used for the `Infinity` literal of
`parseFloat`. -/
def startsWithCS : List Char → List Char → Bool
  | [], _ => true
  | _ :: _, [] => false
  | p :: ps, c :: cs => p = c && startsWithCS ps cs

/-- Exponent part of a JS float literal: `[eE][+-]?digits`; the part is only
consumed when at least one digit is present (longest-valid-prefix rule). -/
def readExp (cs : List Char) : Int :=
  match cs with
  | 'e' :: rest | 'E' :: rest =>
    let p := readSign rest
    let ds := p.2.takeWhile isDigitCh
    if ds = [] then 0
    else if p.1 then -(digitsValC ds : Int) else (digitsValC ds : Int)
  | _ => 0

/-- Model of JS `parseFloat`: skip whitespace, optional sign, `Infinity`
literal, else the longest prefix of the form `digits [. digits] [exp]`;
NaN when no digits are found at all. -/
def parseFloatL (cs : List Char) : JSNum :=
  let cs₀ := cs.dropWhile isJsWs
  let p := readSign cs₀
  let neg := p.1
  let cs₁ := p.2
  if startsWithCS ("Infinity".data) cs₁ then JSNum.inf neg
  else
    let ip := cs₁.takeWhile isDigitCh
    let r1 := cs₁.dropWhile isDigitCh
    let fp := match r1 with
      | '.' :: rest => rest.takeWhile isDigitCh
      | _ => []
    let r2 := match r1 with
      | '.' :: rest => rest.dropWhile isDigitCh
      | _ => r1
    if ip = [] ∧ fp = [] then JSNum.nan
    else
      let e := readExp r2
      let mant : Rat := (digitsValC ip : Rat) + (digitsValC fp : Rat) / (10 : Rat) ^ fp.length
      let v : Rat := mant * (10 : Rat) ^ e
      JSNum.fin (if neg then -v else v)

/-- Model of JS `parseInt` with no radix argument: skip whitespace, optional
sign, `0x`/`0X` hex prefix, else the longest run of decimal digits; NaN when
no digit follows. -/
def parseIntL (cs : List Char) : JSNum :=
  let cs₀ := cs.dropWhile isJsWs
  let p := readSign cs₀
  let neg := p.1
  match p.2 with
  | '0' :: x :: rest =>
    if x = 'x' ∨ x = 'X' then
      let ds := rest.takeWhile isHexCh
      if ds = [] then JSNum.nan
      else
        let v := ds.foldl (fun a c =>
          16 * a + (if isDigitCh c then c.toNat - 48
                    else if decide ('a' ≤ c) && decide (c ≤ 'f') then c.toNat - 87
                    else c.toNat - 55)) 0
        JSNum.fin (if neg then -(v : Rat) else (v : Rat))
    else
      let ds := ('0' :: x :: rest).takeWhile isDigitCh
      JSNum.fin (if neg then -(digitsValC ds : Rat) else (digitsValC ds : Rat))
  | other =>
    let ds := other.takeWhile isDigitCh
    if ds = [] then JSNum.nan
    else JSNum.fin (if neg then -(digitsValC ds : Rat) else (digitsValC ds : Rat))

/-- JS `String.prototype.replace` with a plain one-character pattern:
replaces only the first occurrence. -/
def replaceFirst (a b : Char) : List Char → List Char
  | [] => []
  | c :: cs => if c = a then b :: cs else c :: replaceFirst a b cs

/-- JS `String.prototype.trim`. -/
def jsTrim (cs : List Char) : List Char :=
  ((cs.dropWhile isJsWs).reverse.dropWhile isJsWs).reverse

/-- Split on a single separator character, keeping empty segments
(JS `split('/')` semantics). -/
def splitOnChar (sep : Char) : List Char → List (List Char)
  | [] => [[]]
  | c :: cs =>
    if c = sep then [] :: splitOnChar sep cs
    else
      match splitOnChar sep cs with
      | s :: rest => (c :: s) :: rest
      | [] => [[c]]

/-- JS `split(/\s+/)`: split on maximal whitespace runs, keeping an empty
leading (resp. trailing) segment when the string starts (resp. ends) with
whitespace.  A whitespace character merges with a directly following
whitespace run, hence the one-character lookahead. -/
def jsSplitWs : List Char → List (List Char)
  | [] => [[]]
  | c :: cs =>
    let r := jsSplitWs cs
    if isJsWs c then
      match cs with
      | c2 :: _ => if isJsWs c2 then r else [] :: r
      | [] => [] :: r
    else
      match r with
      | s :: rest => (c :: s) :: rest
      | [] => [[c]]

/-- Per-token step of `parseQuantity`'s fraction branch: a token containing
`/` is split into numerator/denominator and divided via `parseInt`; any
other token contributes `parseFloat(part) || 0`. -/
def parseQuantityTok (part : List Char) : JSNum :=
  if part.contains '/' then
    match splitOnChar '/' part with
    | num :: den :: _ => jsDiv (parseIntL num) (parseIntL den)
    | _ => JSNum.nan
  else
    let v := parseFloatL part
    if jsTruthy v then v else JSNum.fin 0

/-- Embedding of `parseQuantity` (recipeParser.ts): replace the first comma by
a dot, trim; if the text contains `/`, split on whitespace and sum the tokens
(fractions via `parseInt` division, plain tokens via `parseFloat(part) || 0`);
otherwise `parseFloat(str) || 1`. -/
def parseQuantity (s : String) : JSNum :=
  let cs := jsTrim (replaceFirst ',' '.' s.data)
  if cs.contains '/' then
    (jsSplitWs cs).foldl (fun total part => jsAdd total (parseQuantityTok part)) (JSNum.fin 0)
  else
    let v := parseFloatL cs
    if jsTruthy v then v else JSNum.fin 1

/-! ## Unit normalisation and the ingredient-pattern unit alternation -/

/-- ASCII lowercasing (model of `toLowerCase` restricted to ASCII; every key
of the source unit table is already lowercase, accents included). -/
def asciiLower (c : Char) : Char :=
  if decide ('A' ≤ c) && decide (c ≤ 'Z') then Char.ofNat (c.toNat + 32) else c

/-- Case-insensitive character comparison in the sense of a `/i` regex flag
(ASCII folding; accented letters compare exactly). -/
def charCI (a b : Char) : Bool := asciiLower a = asciiLower b

/-- The unit mapping table of `normalizeUnit` (recipeParser.ts), key order
preserved. -/
def unitMap : List (String × String) := [
  ("cup", "tasse"), ("cups", "tasses"),
  ("tbsp", "c. à soupe"), ("tablespoon", "c. à soupe"), ("tablespoons", "c. à soupe"),
  ("tsp", "c. à café"), ("teaspoon", "c. à café"), ("teaspoons", "c. à café"),
  ("c. à s.", "c. à soupe"), ("c. à c.", "c. à café"),
  ("cuillère à soupe", "c. à soupe"), ("cuillères à soupe", "c. à soupe"),
  ("cuillère à café", "c. à café"), ("cuillères à café", "c. à café"),
  ("gramme", "g"), ("grammes", "g"), ("kilogramme", "kg"), ("kilogrammes", "kg"),
  ("litre", "L"), ("litres", "L"), ("l", "L"),
  ("ounce", "oz"), ("ounces", "oz"), ("pound", "lb"), ("pounds", "lb"), ("lbs", "lb"),
  ("piece", ""), ("pieces", ""), ("pièce", ""), ("pièces", "")]

/-- The keys recognised by `normalizeUnit`'s mapping table. -/
def unitMapKeys : List String := unitMap.map Prod.fst

/-- Embedding of `normalizeUnit`: `unitMap[unit.toLowerCase()] || unit`
(note the JS `||`: an empty-string mapping value falls back to the input). -/
def normalizeUnit (unit : String) : String :=
  match unitMap.lookup (String.map asciiLower unit) with
  | some v => if v = "" then unit else v
  | none => unit

/-- Atoms of the unit-word alternation of `parseIngredientString`'s first
pattern: a literal character, an optional character (`s?`, `p?`, `\.?`),
a `\s*` gap, or a two-way literal alternative (`(?:soupe|café)`). -/
inductive UTok where
  | ch (c : Char) : UTok
  | opt (c : Char) : UTok
  | ws : UTok
  | alt2 (a b : String) : UTok

/-- All suffixes reachable by consuming zero or more whitespace characters
(the `\s*` atom). -/
def wsRests : List Char → List (List Char)
  | [] => [[]]
  | c :: cs => (c :: cs) :: (if isJsWs c then wsRests cs else [])

/-- Consume a literal, case-insensitively. -/
def dropCI : List Char → List Char → Option (List Char)
  | [], cs => some cs
  | _ :: _, [] => none
  | p :: ps, c :: cs => if charCI p c then dropCI ps cs else none

/-- All ways one alternation atom can consume input (backtracking is kept by
returning every possible rest). -/
def utokRests : UTok → List Char → List (List Char)
  | UTok.ch _, [] => []
  | UTok.ch a, c :: cs => if charCI a c then [cs] else []
  | UTok.opt _, [] => [[]]
  | UTok.opt a, c :: cs => if charCI a c then [cs, c :: cs] else [c :: cs]
  | UTok.ws, cs => wsRests cs
  | UTok.alt2 a b, cs => (dropCI a.data cs).toList ++ (dropCI b.data cs).toList

/-- Run a sequence of atoms, collecting every reachable rest. -/
def useq (ts : List UTok) (cs : List Char) : List (List Char) :=
  ts.foldl (fun rests t => rests.flatMap (utokRests t)) [cs]

/-- Lift a plain literal to a token sequence. -/
def litToks (s : String) : List UTok := s.data.map UTok.ch

/-- The unit-word alternation of `parseIngredientString`'s first pattern
(recipeParser.ts line 127), branch for branch, in source order:
`cups?|tasses?|c\.\s*à\s*s\.?|c\.\s*à\s*c\.?|cuillères?\s*à\s*(?:soupe|café)|
tbsp?|tsp?|tablespoons?|teaspoons?|ml|cl|l|litres?|g|kg|grammes?|
kilogrammes?|oz|ounces?|lb|lbs?|pounds?|tranches?|slices?|gousses?|cloves?`. -/
def unitAltBranches : List (List UTok) := [
  litToks "cup" ++ [UTok.opt 's'],
  litToks "tasse" ++ [UTok.opt 's'],
  [UTok.ch 'c', UTok.ch '.', UTok.ws, UTok.ch 'à', UTok.ws, UTok.ch 's', UTok.opt '.'],
  [UTok.ch 'c', UTok.ch '.', UTok.ws, UTok.ch 'à', UTok.ws, UTok.ch 'c', UTok.opt '.'],
  litToks "cuillère" ++ [UTok.opt 's', UTok.ws, UTok.ch 'à', UTok.ws, UTok.alt2 "soupe" "café"],
  litToks "tbs" ++ [UTok.opt 'p'],
  litToks "ts" ++ [UTok.opt 'p'],
  litToks "tablespoon" ++ [UTok.opt 's'],
  litToks "teaspoon" ++ [UTok.opt 's'],
  litToks "ml",
  litToks "cl",
  litToks "l",
  litToks "litre" ++ [UTok.opt 's'],
  litToks "g",
  litToks "kg",
  litToks "gramme" ++ [UTok.opt 's'],
  litToks "kilogramme" ++ [UTok.opt 's'],
  litToks "oz",
  litToks "ounce" ++ [UTok.opt 's'],
  litToks "lb",
  litToks "lb" ++ [UTok.opt 's'],
  litToks "pound" ++ [UTok.opt 's'],
  litToks "tranche" ++ [UTok.opt 's'],
  litToks "slice" ++ [UTok.opt 's'],
  litToks "gousse" ++ [UTok.opt 's'],
  litToks "clove" ++ [UTok.opt 's']]

/-- Whether the unit alternation matches a whole word (i.e. whether, in an
ingredient line `quantity + word + rest`, the word can be captured as the
unit group of pattern 1). -/
def matchesUnitAlt (s : String) : Bool :=
  unitAltBranches.any (fun b => (useq b s.data).any (fun r => r.isEmpty))

/-! ## parseServings -/

deriving instance DecidableEq for Except

/-- The possible shapes of a schema.org `recipeYield` value. -/
inductive YieldValue where
  | num (q : Rat) : YieldValue
  | str (s : String) : YieldValue
  | arr (l : List String) : YieldValue
  | undef : YieldValue

/-- First maximal digit run of a string: the capture of `.match(/(\d+)/)`. -/
def firstDigitRun : List Char → Option (List Char)
  | [] => none
  | c :: cs =>
    if isDigitCh c then some ((c :: cs).takeWhile isDigitCh)
    else firstDigitRun cs

/-- JS falsiness of a `recipeYield` value (`!recipeYield`): 0, the empty
string and `undefined` are falsy; every array is truthy. -/
def yieldFalsy : YieldValue → Bool
  | YieldValue.num q => q == 0
  | YieldValue.str s => s == ""
  | YieldValue.arr _ => false
  | YieldValue.undef => true

/-- String arm of `parseServings`: `match(/(\d+)/)` then `parseInt(match[1])`,
defaulting to 4 when there is no digit. -/
def servingsFromStr (s : String) : JSNum :=
  match firstDigitRun s.data with
  | some ds => parseIntL ds
  | none => JSNum.fin 4

/-- Embedding of `parseServings` (recipeParser.ts lines 110-118).  The
`Except` models the JS `TypeError` thrown when `recipeYield` is an empty
array (`recipeYield[0]` is `undefined`, and `.match` is called on it). -/
def parseServings (v : YieldValue) : Except Unit JSNum :=
  if yieldFalsy v then Except.ok (JSNum.fin 4)
  else
    match v with
    | YieldValue.num q => Except.ok (JSNum.fin q)
    | YieldValue.str s => Except.ok (servingsFromStr s)
    | YieldValue.arr l =>
      match l.head? with
      | some s => Except.ok (servingsFromStr s)
      | none => Except.error ()
    | YieldValue.undef => Except.ok (JSNum.fin 4)

/-! ## JSON values and a model of `JSON.parse` -/

/-- JSON values. -/
inductive Json where
  | null : Json
  | bool (b : Bool) : Json
  | num (q : Rat) : Json
  | str (s : String) : Json
  | arr (elems : List Json) : Json
  | obj (fields : List (String × Json)) : Json

/-- JSON insignificant whitespace. -/
def isJsonWs (c : Char) : Bool := c = ' ' || c = '\t' || c = '\n' || c = '\r'

/-- Skip JSON whitespace. -/
def skipJWs (cs : List Char) : List Char := cs.dropWhile isJsonWs

/-- Value of one hexadecimal digit character. -/
def hexVal (c : Char) : Nat :=
  if isDigitCh c then c.toNat - 48
  else if decide ('a' ≤ c) && decide (c ≤ 'f') then c.toNat - 87
  else c.toNat - 55

/-- JSON string body after the opening quote; returns the decoded characters
and the rest after the closing quote.  Control characters below 0x20 are
rejected, escapes are decoded. -/
def parseJStr : Nat → List Char → Option (List Char × List Char)
  | 0, _ => none
  | fuel + 1, cs =>
    match cs with
    | [] => none
    | '"' :: rest => some ([], rest)
    | '\\' :: rest =>
      match rest with
      | 'u' :: h1 :: h2 :: h3 :: h4 :: rest2 =>
        if isHexCh h1 && isHexCh h2 && isHexCh h3 && isHexCh h4 then
          match parseJStr fuel rest2 with
          | some p =>
            some (Char.ofNat (hexVal h1 * 4096 + hexVal h2 * 256 + hexVal h3 * 16 + hexVal h4) :: p.1, p.2)
          | none => none
        else none
      | e :: rest2 =>
        let c? : Option Char :=
          if e = '"' then some '"'
          else if e = '\\' then some '\\'
          else if e = '/' then some '/'
          else if e = 'b' then some (Char.ofNat 8)
          else if e = 'f' then some (Char.ofNat 12)
          else if e = 'n' then some '\n'
          else if e = 'r' then some '\r'
          else if e = 't' then some '\t'
          else none
        match c? with
        | some c =>
          match parseJStr fuel rest2 with
          | some p => some (c :: p.1, p.2)
          | none => none
        | none => none
      | [] => none
    | c :: rest =>
      if c.toNat < 32 then none
      else
        match parseJStr fuel rest with
        | some p => some (c :: p.1, p.2)
        | none => none

/-- JSON number literal: `-?(0|[1-9]\d*)(\.\d+)?([eE][+-]?\d+)?`. -/
def parseJNum (cs : List Char) : Option (Rat × List Char) :=
  let sp : Bool × List Char := match cs with
    | '-' :: r => (true, r)
    | _ => (false, cs)
  let neg := sp.1
  let ipPair : Option (List Char × List Char) :=
    match sp.2 with
    | '0' :: r => some (['0'], r)
    | c :: r => if isDigitCh c then some (c :: r.takeWhile isDigitCh, r.dropWhile isDigitCh) else none
    | [] => none
  match ipPair with
  | none => none
  | some (ip, r1) =>
    let fracPair : Option (List Char × List Char) :=
      match r1 with
      | '.' :: r2 =>
        let fd := r2.takeWhile isDigitCh
        if fd = [] then none else some (fd, r2.dropWhile isDigitCh)
      | _ => some ([], r1)
    match fracPair with
    | none => none
    | some (fd, r2) =>
      let expPair : Option (Int × List Char) :=
        match r2 with
        | 'e' :: r3 | 'E' :: r3 =>
          let q : Bool × List Char := match r3 with
            | '-' :: r4 => (true, r4)
            | '+' :: r4 => (false, r4)
            | _ => (false, r3)
          let ed := q.2.takeWhile isDigitCh
          if ed = [] then none
          else some (if q.1 then -(digitsValC ed : Int) else (digitsValC ed : Int), q.2.dropWhile isDigitCh)
        | _ => some (0, r2)
      match expPair with
      | none => none
      | some (e, r3) =>
        let mant : Rat := (digitsValC ip : Rat) + (digitsValC fd : Rat) / (10 : Rat) ^ fd.length
        let v : Rat := mant * (10 : Rat) ^ e
        some (if neg then -v else v, r3)

mutual

/-- JSON value parser (fuel-indexed). -/
def parseJVal : Nat → List Char → Option (Json × List Char)
  | 0, _ => none
  | fuel + 1, cs =>
    match skipJWs cs with
    | '"' :: rest =>
      match parseJStr (fuel + 1) rest with
      | some p => some (Json.str (String.mk p.1), p.2)
      | none => none
    | '[' :: rest => parseJArr fuel rest
    | '{' :: rest => parseJObj fuel rest
    | 't' :: rest => if startsWithCS ("rue".data) rest then some (Json.bool true, rest.drop 3) else none
    | 'f' :: rest => if startsWithCS ("alse".data) rest then some (Json.bool false, rest.drop 4) else none
    | 'n' :: rest => if startsWithCS ("ull".data) rest then some (Json.null, rest.drop 3) else none
    | other =>
      match parseJNum other with
      | some p => some (Json.num p.1, p.2)
      | none => none

/-- JSON array after the opening bracket. -/
def parseJArr : Nat → List Char → Option (Json × List Char)
  | 0, _ => none
  | fuel + 1, cs =>
    match skipJWs cs with
    | ']' :: rest => some (Json.arr [], rest)
    | _ => parseJArrItems fuel cs []

/-- Comma-separated array elements (accumulator reversed). -/
def parseJArrItems : Nat → List Char → List Json → Option (Json × List Char)
  | 0, _, _ => none
  | fuel + 1, cs, acc =>
    match parseJVal fuel cs with
    | none => none
    | some (v, rest) =>
      match skipJWs rest with
      | ',' :: rest2 => parseJArrItems fuel rest2 (v :: acc)
      | ']' :: rest2 => some (Json.arr (v :: acc).reverse, rest2)
      | _ => none

/-- JSON object after the opening brace. -/
def parseJObj : Nat → List Char → Option (Json × List Char)
  | 0, _ => none
  | fuel + 1, cs =>
    match skipJWs cs with
    | '}' :: rest => some (Json.obj [], rest)
    | _ => parseJObjItems fuel cs []

/-- Comma-separated `"key": value` members (accumulator reversed). -/
def parseJObjItems : Nat → List Char → List (String × Json) → Option (Json × List Char)
  | 0, _, _ => none
  | fuel + 1, cs, acc =>
    match skipJWs cs with
    | '"' :: rest =>
      match parseJStr (fuel + 1) rest with
      | none => none
      | some (key, r1) =>
        match skipJWs r1 with
        | ':' :: r2 =>
          match parseJVal fuel r2 with
          | none => none
          | some (v, r3) =>
            match skipJWs r3 with
            | ',' :: r4 => parseJObjItems fuel r4 ((String.mk key, v) :: acc)
            | '}' :: r4 => some (Json.obj ((String.mk key, v) :: acc).reverse, r4)
            | _ => none
        | _ => none
    | _ => none

end

/-- Model of `JSON.parse`: parse one value, allow surrounding whitespace,
reject trailing input (`none` models the thrown `SyntaxError`). -/
def parseJson (s : String) : Option Json :=
  match parseJVal (4 * s.data.length + 4) s.data with
  | some (v, rest) => if skipJWs rest = [] then some v else none
  | none => none

/-! ## JSON-LD script-block extraction -/

/-- The `type=["']application/ld+json["']` part of the script-tag pattern. -/
def matchTypeAttr (cs : List Char) : Option (List Char) :=
  match dropCI ("type=".data) cs with
  | some r1 =>
    match r1 with
    | q1 :: r2 =>
      if q1 = '"' ∨ q1 = '\'' then
        match dropCI ("application/ld+json".data) r2 with
        | some r3 =>
          match r3 with
          | q2 :: r4 => if q2 = '"' ∨ q2 = '\'' then some r4 else none
          | [] => none
        | none => none
      else none
    | [] => none
  | none => none

/-- Scan inside the script tag (`[^>]*`) for the type attribute; fails when a
`>` or the end of input is reached first. -/
def scanToType : List Char → Option (List Char)
  | [] => none
  | c :: cs =>
    match matchTypeAttr (c :: cs) with
    | some rest => some rest
    | none => if c = '>' then none else scanToType cs

/-- Consume up to and including the next `>` (the closing `[^>]*>` of the
opening tag); fails at end of input. -/
def dropToGt : List Char → Option (List Char)
  | [] => none
  | c :: cs => if c = '>' then some cs else dropToGt cs

/-- Split off the lazy script body: everything up to the first
case-insensitive `</script>`, plus the rest after it. -/
def splitAtCloseScript : List Char → Option (List Char × List Char)
  | [] => none
  | c :: cs =>
    match dropCI ("</script>".data) (c :: cs) with
    | some rest => some ([], rest)
    | none =>
      match splitAtCloseScript cs with
      | some p => some (c :: p.1, p.2)
      | none => none

/-- Try to match one whole JSON-LD script block starting exactly here;
returns (body, rest after the closing tag). -/
def matchScriptAt (cs : List Char) : Option (List Char × List Char) :=
  match dropCI ("<script".data) cs with
  | some r1 =>
    match scanToType r1 with
    | some r2 =>
      match dropToGt r2 with
      | some r3 => splitAtCloseScript r3
      | none => none
    | none => none
  | none => none

/-- Earliest JSON-LD script block in the input (the semantics of repeatedly
calling `regex.exec`). -/
def findScriptBlock : List Char → Option (List Char × List Char)
  | [] => none
  | c :: cs =>
    match matchScriptAt (c :: cs) with
    | some p => some p
    | none => findScriptBlock cs

/-- What one script body contributes to `extractJsonLd`'s result: a JSON
array is spread element-wise, any other successfully parsed value is pushed
as one item, and a body that fails to parse contributes nothing (the caught
exception of the source). -/
def ldBlockItems (body : List Char) : List Json :=
  match parseJson (String.mk body) with
  | some (Json.arr xs) => xs
  | some v => [v]
  | none => []

/-- The scan loop of `extractJsonLd`: find each block in turn, parse it,
flatten its contribution, continue after its closing tag.  The fuel is the
input length; every found block consumes at least one character. -/
def extractJsonLdScan : Nat → List Char → List Json
  | 0, _ => []
  | fuel + 1, cs =>
    match findScriptBlock cs with
    | none => []
    | some (body, rest) => ldBlockItems body ++ extractJsonLdScan fuel rest

/-- Embedding of `extractJsonLd` (recipeParser.ts lines 259-285). -/
def extractJsonLd (html : String) : List Json :=
  extractJsonLdScan html.data.length html.data

/-- The raw bodies of the JSON-LD script blocks of a page, in scan order
(same scan as `extractJsonLd`, no parsing). -/
def ldJsonBlocksScan : Nat → List Char → List String
  | 0, _ => []
  | fuel + 1, cs =>
    match findScriptBlock cs with
    | none => []
    | some (body, rest) => String.mk body :: ldJsonBlocksScan fuel rest

/-- All JSON-LD script-block bodies of a page. -/
def ldJsonBlocks (html : String) : List String :=
  ldJsonBlocksScan html.data.length html.data

/-! ## Content-level model of the remote `getData` (corrupted files) -/

namespace GHContent

/-- Content-level embedding of `getData`: a missing file is an empty
collection, a present file is `JSON.parse`d, and a parse failure is caught
and turned into an empty array. -/
def getData (file : Option String) : Json :=
  match file with
  | none => Json.arr []
  | some content =>
    match parseJson content with
    | some v => v
    | none => Json.arr []

/-- The `id` property of a JSON record, when it is a string (the comparison
key of the single-record save helpers). -/
def jsonId (j : Json) : Option String :=
  match j with
  | Json.obj fields =>
    match fields.lookup "id" with
    | some (Json.str s) => some s
    | _ => none
  | _ => none

/-- The find-index-replace-or-push step of the single-record save helpers,
on raw JSON records. -/
def upsertJson (m : Json) : List Json → List Json
  | [] => [m]
  | j :: js => if jsonId j == jsonId m then m :: js else j :: upsertJson m js

end GHContent

/-! ## Entity records (src/lib/types/recipe.ts, storage.ts) -/

/-- An ingredient of a recipe. -/
structure Ingredient where
  name : String
  quantity : Rat
  unit : String
  group : Option String
deriving DecidableEq

/-- A recipe record. -/
structure Recipe where
  id : String
  title : String
  source : Option String
  prepTime : Option Nat
  cookTime : Option Nat
  servings : Nat
  ingredients : List Ingredient
  steps : List String
  notes : Option String
  createdAt : String
  updatedAt : String
deriving DecidableEq

/-- The metadata status enum. -/
inductive RecipeStatus where
  | toTest | testing | validated | archived
deriving DecidableEq

/-- One cooking-history entry. -/
structure HistoryEntry where
  date : String
  notes : Option String
deriving DecidableEq

/-- A recipe-metadata record (same id as its recipe). -/
structure RecipeMetadata where
  id : String
  status : RecipeStatus
  rating : Option Nat
  tags : List String
  history : List HistoryEntry
deriving DecidableEq

/-- A meal slot. -/
inductive MealSlot where
  | lunch | dinner
deriving DecidableEq

/-- A weekly-planning entry. -/
structure PlanningEntry where
  id : String
  weekStart : String
  day : Nat
  slot : MealSlot
  recipeId : String
deriving DecidableEq

/-- One shopping-list item. -/
structure ShoppingItem where
  id : String
  name : String
  quantity : Option Rat
  unit : Option String
  checked : Bool
  category : Option String
  fromRecipes : Option (List String)
deriving DecidableEq

/-- Shopping-list status enum. -/
inductive ShoppingListStatus where
  | active | completed | archived
deriving DecidableEq

/-- A shopping list. -/
structure ShoppingList where
  id : String
  name : String
  createdAt : String
  updatedAt : Option String
  status : ShoppingListStatus
  items : List ShoppingItem
deriving DecidableEq

/-- A recipe joined with its metadata (source `RecipeWithMeta` extends the
recipe record with a `metadata` field; modelled as a pair). -/
structure RecipeWithMeta where
  recipe : Recipe
  metadata : RecipeMetadata
deriving DecidableEq

/-- The lazily created default metadata record
(`{id, status: 'to-test', tags: [], history: []}`). -/
def defaultMetadata (recipeId : String) : RecipeMetadata :=
  { id := recipeId, status := RecipeStatus.toTest, rating := none, tags := [], history := [] }

/-- Replace the first record with the same id, or append when absent — the
`findIndex`/assign-or-push step shared by every single-record save helper
(also the per-key semantics of an IndexedDB `put`). -/
def upsertBy {α : Type} (idOf : α → String) (x : α) : List α → List α
  | [] => [x]
  | y :: ys => if idOf y = idOf x then x :: ys else y :: upsertBy idOf x ys

/-- Upsert a whole batch, in order (bulk import). -/
def putAll {α : Type} (idOf : α → String) (xs : List α) (l : List α) : List α :=
  xs.foldl (fun acc x => upsertBy idOf x acc) l

/-- The export bundle (`ExportData`). -/
structure ExportData where
  version : Nat
  exportedAt : String
  recipes : List Recipe
  metadata : List RecipeMetadata
  planning : List PlanningEntry
  shoppingLists : List ShoppingList
deriving DecidableEq

/-! ## Local store adapter (storage.ts)

The embedded IndexedDB is modelled as four collections keyed by id; a `put`
is an upsert by key, a `delete` removes the record with that key.  The
JSON round-trip deep clone performed before every write strips reactive
proxies and is the identity on the plain records modelled here. -/

/-- The four local collections. -/
structure LocalState where
  recipes : List Recipe
  metadata : List RecipeMetadata
  planning : List PlanningEntry
  shoppingLists : List ShoppingList
deriving DecidableEq

namespace LocalStore

/-- `getAllRecipes`. -/
def getAllRecipes (s : LocalState) : List Recipe := s.recipes

/-- `getRecipe`. -/
def getRecipe (s : LocalState) (id : String) : Option Recipe :=
  s.recipes.find? (fun r => r.id == id)

/-- `saveRecipe` (deep-clone then `put`). -/
def saveRecipe (s : LocalState) (r : Recipe) : LocalState :=
  { s with recipes := upsertBy Recipe.id r s.recipes }

/-- `deleteRecipe`: delete the recipe row and the metadata row of that id. -/
def deleteRecipe (s : LocalState) (id : String) : LocalState :=
  { s with
    recipes := s.recipes.filter (fun r => r.id != id),
    metadata := s.metadata.filter (fun m => m.id != id) }

/-- `getMetadata`. -/
def getMetadata (s : LocalState) (id : String) : Option RecipeMetadata :=
  s.metadata.find? (fun m => m.id == id)

/-- `getAllMetadata`. -/
def getAllMetadata (s : LocalState) : List RecipeMetadata := s.metadata

/-- `saveMetadata` (deep-clone then `put`). -/
def saveMetadata (s : LocalState) (m : RecipeMetadata) : LocalState :=
  { s with metadata := upsertBy RecipeMetadata.id m s.metadata }

/-- `createDefaultMetadata`: build the default record, persist it, return it. -/
def createDefaultMetadata (s : LocalState) (recipeId : String) : RecipeMetadata × LocalState :=
  (defaultMetadata recipeId, saveMetadata s (defaultMetadata recipeId))

/-- `getRecipeWithMeta`: join recipe and metadata, lazily creating (and
persisting) default metadata on a miss. -/
def getRecipeWithMeta (s : LocalState) (id : String) : Option RecipeWithMeta × LocalState :=
  match getRecipe s id with
  | none => (none, s)
  | some r =>
    match getMetadata s id with
    | some m => (some ⟨r, m⟩, s)
    | none =>
      let p := createDefaultMetadata s id
      (some ⟨r, p.1⟩, p.2)

/-- Join every recipe against a metadata snapshot taken once up front,
creating default metadata (persisted into the evolving state) on each miss. -/
def joinAll (metaMap : List RecipeMetadata) : List Recipe → LocalState → List RecipeWithMeta × LocalState
  | [], s => ([], s)
  | r :: rs, s =>
    match metaMap.find? (fun m => m.id == r.id) with
    | some m =>
      let p := joinAll metaMap rs s
      (⟨r, m⟩ :: p.1, p.2)
    | none =>
      let c := createDefaultMetadata s r.id
      let p := joinAll metaMap rs c.2
      (⟨r, c.1⟩ :: p.1, p.2)

/-- `getAllRecipesWithMeta`. -/
def getAllRecipesWithMeta (s : LocalState) : List RecipeWithMeta × LocalState :=
  joinAll s.metadata s.recipes s

/-- `savePlanningEntry`. -/
def savePlanningEntry (s : LocalState) (e : PlanningEntry) : LocalState :=
  { s with planning := upsertBy PlanningEntry.id e s.planning }

/-- `deletePlanningEntry`. -/
def deletePlanningEntry (s : LocalState) (id : String) : LocalState :=
  { s with planning := s.planning.filter (fun p => p.id != id) }

/-- `saveShoppingList`. -/
def saveShoppingList (s : LocalState) (l : ShoppingList) : LocalState :=
  { s with shoppingLists := upsertBy ShoppingList.id l s.shoppingLists }

/-- `deleteShoppingList`. -/
def deleteShoppingList (s : LocalState) (id : String) : LocalState :=
  { s with shoppingLists := s.shoppingLists.filter (fun l => l.id != id) }

/-- `exportAllData` (the export timestamp is passed in). -/
def exportAllData (s : LocalState) (now : String) : ExportData :=
  { version := 1, exportedAt := now,
    recipes := s.recipes, metadata := s.metadata,
    planning := s.planning, shoppingLists := s.shoppingLists }

/-- `importAllData`: upsert every record of the bundle into its collection. -/
def importAllData (s : LocalState) (d : ExportData) : LocalState :=
  { recipes := putAll Recipe.id d.recipes s.recipes,
    metadata := putAll RecipeMetadata.id d.metadata s.metadata,
    planning := putAll PlanningEntry.id d.planning s.planning,
    shoppingLists := putAll ShoppingList.id d.shoppingLists s.shoppingLists }

/-- `clearAllData`. -/
def clearAllData : LocalState :=
  { recipes := [], metadata := [], planning := [], shoppingLists := [] }

end LocalStore

/-! ## Remote store adapter (GitHub storage service), dataset level

Each dataset is one remote JSON file; `none` models a missing file, which
`getData` treats as an empty collection.  These operations model the adapter
run in isolation: every `saveData` commits (the freshly read sha matches, so
the first attempt succeeds).  The conflict-retry protocol itself, with an
interfering writer, is modelled separately below. -/

/-- The remote dataset files plus the `.gitkeep` marker. -/
structure GHState where
  recipesFile : Option (List Recipe)
  metadataFile : Option (List RecipeMetadata)
  planningFile : Option (List PlanningEntry)
  shoppingFile : Option (List ShoppingList)
  gitkeep : Bool
deriving DecidableEq

namespace GHStore

/-- `getData` for the recipes file. -/
def getAllRecipes (s : GHState) : List Recipe := s.recipesFile.getD []

/-- `getData` for the metadata file. -/
def getAllMetadata (s : GHState) : List RecipeMetadata := s.metadataFile.getD []

/-- `getData` for the planning file. -/
def getAllPlanning (s : GHState) : List PlanningEntry := s.planningFile.getD []

/-- `getData` for the shopping-lists file. -/
def getAllShoppingLists (s : GHState) : List ShoppingList := s.shoppingFile.getD []

/-- `getRecipe`: fetch the whole array, find by id. -/
def getRecipe (s : GHState) (id : String) : Option Recipe :=
  (getAllRecipes s).find? (fun r => r.id == id)

/-- `getMetadata`. -/
def getMetadata (s : GHState) (id : String) : Option RecipeMetadata :=
  (getAllMetadata s).find? (fun m => m.id == id)

/-- `saveData` on the recipes file (successful write: file becomes the new
array). -/
def saveDataRecipes (s : GHState) (l : List Recipe) : GHState :=
  { s with recipesFile := some l }

/-- `saveData` on the metadata file. -/
def saveDataMetadata (s : GHState) (l : List RecipeMetadata) : GHState :=
  { s with metadataFile := some l }

/-- `saveData` on the planning file. -/
def saveDataPlanning (s : GHState) (l : List PlanningEntry) : GHState :=
  { s with planningFile := some l }

/-- `saveData` on the shopping-lists file. -/
def saveDataShopping (s : GHState) (l : List ShoppingList) : GHState :=
  { s with shoppingFile := some l }

/-- `saveRecipe`: read-modify-write of the whole recipes array. -/
def saveRecipe (s : GHState) (r : Recipe) : GHState :=
  saveDataRecipes s (upsertBy Recipe.id r (getAllRecipes s))

/-- `deleteRecipe`: filter the recipes array, write it, then filter the
metadata array and write that too. -/
def deleteRecipe (s : GHState) (id : String) : GHState :=
  let s1 := saveDataRecipes s ((getAllRecipes s).filter (fun r => r.id != id))
  saveDataMetadata s1 ((getAllMetadata s1).filter (fun m => m.id != id))

/-- `saveMetadata`: fetch the full array, upsert, save. -/
def saveMetadata (s : GHState) (m : RecipeMetadata) : GHState :=
  saveDataMetadata s (upsertBy RecipeMetadata.id m (getAllMetadata s))

/-- `createDefaultMetadata`. -/
def createDefaultMetadata (s : GHState) (recipeId : String) : RecipeMetadata × GHState :=
  (defaultMetadata recipeId, saveMetadata s (defaultMetadata recipeId))

/-- `getRecipeWithMeta` on the remote backend. -/
def getRecipeWithMeta (s : GHState) (id : String) : Option RecipeWithMeta × GHState :=
  match getRecipe s id with
  | none => (none, s)
  | some r =>
    match getMetadata s id with
    | some m => (some ⟨r, m⟩, s)
    | none =>
      let p := createDefaultMetadata s id
      (some ⟨r, p.1⟩, p.2)

/-- Remote analogue of `joinAll` (metadata snapshot taken once). -/
def joinAll (metaMap : List RecipeMetadata) : List Recipe → GHState → List RecipeWithMeta × GHState
  | [], s => ([], s)
  | r :: rs, s =>
    match metaMap.find? (fun m => m.id == r.id) with
    | some m =>
      let p := joinAll metaMap rs s
      (⟨r, m⟩ :: p.1, p.2)
    | none =>
      let c := createDefaultMetadata s r.id
      let p := joinAll metaMap rs c.2
      (⟨r, c.1⟩ :: p.1, p.2)

/-- `getAllRecipesWithMeta` on the remote backend. -/
def getAllRecipesWithMeta (s : GHState) : List RecipeWithMeta × GHState :=
  joinAll (getAllMetadata s) (getAllRecipes s) s

/-- `savePlanningEntry`. -/
def savePlanningEntry (s : GHState) (e : PlanningEntry) : GHState :=
  saveDataPlanning s (upsertBy PlanningEntry.id e (getAllPlanning s))

/-- `saveShoppingList`. -/
def saveShoppingList (s : GHState) (l : ShoppingList) : GHState :=
  saveDataShopping s (upsertBy ShoppingList.id l (getAllShoppingLists s))

/-- `initializeDataFolder`: create the `.gitkeep` marker when absent. -/
def initializeDataFolder (s : GHState) : GHState :=
  if s.gitkeep then s else { s with gitkeep := true }

/-- `exportAllData`. -/
def exportAllData (s : GHState) (now : String) : ExportData :=
  { version := 1, exportedAt := now,
    recipes := getAllRecipes s, metadata := getAllMetadata s,
    planning := getAllPlanning s, shoppingLists := getAllShoppingLists s }

/-- `importAllData`: write the four dataset files sequentially, each file
becoming exactly the bundle's array. -/
def importAllData (s : GHState) (d : ExportData) : GHState :=
  let s1 := saveDataRecipes s d.recipes
  let s2 := saveDataMetadata s1 d.metadata
  let s3 := saveDataPlanning s2 d.planning
  saveDataShopping s3 d.shoppingLists

end GHStore

/-! ## Unified data service: migration (dataService.ts) -/

namespace DataService

/-- Embedding of `migrateToGitHub`: fail when unconfigured; export the local
data; when all four collections are empty, succeed with no remote action;
otherwise ensure the data folder exists and import the bundle remotely.
Local data is never modified.  Returns (success flag, final remote state). -/
def migrateToGitHub (configured : Bool) (ls : LocalState) (gh : GHState) (now : String) :
    Bool × GHState :=
  if ¬ configured then (false, gh)
  else
    let d := LocalStore.exportAllData ls now
    if d.recipes.isEmpty && d.metadata.isEmpty && d.planning.isEmpty && d.shoppingLists.isEmpty then
      (true, gh)
    else
      (true, GHStore.importAllData (GHStore.initializeDataFolder gh) d)

end DataService

/-! ## The conflict-retry protocol

`saveData`'s retry loop is modelled as a trace-producing state machine.  An
adversary `schedule : Nat → Bool` decides, for each attempt index, whether
another writer bumps the file's sha between the attempt's fresh read and its
write — i.e. whether that write is rejected with a 409 conflict.  The trace
records every remote interaction in order. -/

namespace GHProto

/-- One remote interaction of `saveData`: a `getFile` (with or without the
cache-busting parameter), a `saveFile` attempt (conflicting or committing),
or a backoff delay in milliseconds. -/
inductive GHEvent where
  | readFile (noCache : Bool) : GHEvent
  | writeFile (conflict : Bool) : GHEvent
  | delayMs (ms : Nat) : GHEvent
deriving DecidableEq

/-- How a save call ends: the write committed, the conflict error was
rethrown to the caller, or the loop ran zero attempts. -/
inductive SaveOutcome where
  | success | conflictError | noAttempt
deriving DecidableEq

/-- The body of `saveData`'s `for` loop (lines 222-245): each attempt reads
the file fresh (`noCache = true`) to get the sha supplied to the write; a
conflicting write with attempts remaining is followed by a
`100 * 2 ^ attempt` ms backoff and a retry; a conflicting write on the last
attempt rethrows; a committing write is followed by one plain re-read that
refreshes the sha cache, and the call returns. -/
def saveDataGo (schedule : Nat → Bool) (maxRetries : Nat) :
    Nat → Nat → List GHEvent × SaveOutcome
  | _, 0 => ([], SaveOutcome.noAttempt)
  | attempt, remaining + 1 =>
    if schedule attempt then
      if attempt + 1 < maxRetries then
        let rest := saveDataGo schedule maxRetries (attempt + 1) remaining
        (GHEvent.readFile true :: GHEvent.writeFile true ::
          GHEvent.delayMs (100 * 2 ^ attempt) :: rest.1, rest.2)
      else
        ([GHEvent.readFile true, GHEvent.writeFile true], SaveOutcome.conflictError)
    else
      ([GHEvent.readFile true, GHEvent.writeFile false, GHEvent.readFile false],
        SaveOutcome.success)

/-- A full `saveData(…, maxRetries)` call. -/
def saveDataRun (schedule : Nat → Bool) (maxRetries : Nat) : List GHEvent × SaveOutcome :=
  saveDataGo schedule maxRetries 0 maxRetries

/-- One interaction of a single-record save wrapper (`saveMetadata`,
`savePlanningEntry`, `saveShoppingList`): the cache-bypassed re-fetch of the
whole dataset array, the inner `saveData` call (recording the `maxRetries`
argument it was given and its own trace), or a wrapper-level backoff. -/
inductive WEvent where
  | fetchAll (noCache : Bool) : WEvent
  | saveDataCall (maxRetries : Nat) (inner : List GHEvent) : WEvent
  | delayMs (ms : Nat) : WEvent
deriving DecidableEq

/-- The wrapper loop shared verbatim by `saveMetadata`, `savePlanningEntry`
and `saveShoppingList`: each attempt re-fetches the full array with
`noCache = true`, upserts the record, and calls `saveData` with
`maxRetries = 1`; a conflict escaping that single inner attempt is caught
and, with wrapper attempts remaining, retried after `150 * 2 ^ attempt` ms. -/
def saveSingleGo (schedule : Nat → Bool) (maxRetries : Nat) :
    Nat → Nat → List WEvent × SaveOutcome
  | _, 0 => ([], SaveOutcome.noAttempt)
  | attempt, remaining + 1 =>
    let inner := saveDataRun (fun _ => schedule attempt) 1
    match inner.2 with
    | SaveOutcome.conflictError =>
      if attempt + 1 < maxRetries then
        let rest := saveSingleGo schedule maxRetries (attempt + 1) remaining
        (WEvent.fetchAll true :: WEvent.saveDataCall 1 inner.1 ::
          WEvent.delayMs (150 * 2 ^ attempt) :: rest.1, rest.2)
      else
        ([WEvent.fetchAll true, WEvent.saveDataCall 1 inner.1], SaveOutcome.conflictError)
    | _ =>
      ([WEvent.fetchAll true, WEvent.saveDataCall 1 inner.1], SaveOutcome.success)

/-- A full `saveMetadata(…, maxRetries = 3)` call, trace level. -/
def saveMetadataRun (schedule : Nat → Bool) : List WEvent × SaveOutcome :=
  saveSingleGo schedule 3 0 3

/-- A full `savePlanningEntry(…, maxRetries = 3)` call, trace level. -/
def savePlanningEntryRun (schedule : Nat → Bool) : List WEvent × SaveOutcome :=
  saveSingleGo schedule 3 0 3

/-- A full `saveShoppingList(…, maxRetries = 3)` call, trace level. -/
def saveShoppingListRun (schedule : Nat → Bool) : List WEvent × SaveOutcome :=
  saveSingleGo schedule 3 0 3

/-- A bulk recipe write (`saveRecipe` / `saveAllRecipes` /
`deleteRecipe`): `saveData` is called with its default `maxRetries = 3`, so
the backoff loop (100 ms base) runs inside `saveData` itself. -/
def saveRecipeRun (schedule : Nat → Bool) : List GHEvent × SaveOutcome :=
  saveDataRun schedule 3

/-- Expected trace of consecutive all-conflict attempts `a, a+1, …, a+k-1`
out of `maxRetries`: fresh read, rejected write, and a backoff of
`100 * 2 ^ i` ms whenever attempt `i` is not the last one. -/
def conflictTrace (maxRetries a k : Nat) : List GHEvent :=
  (List.range' a k).flatMap (fun i =>
    [GHEvent.readFile true, GHEvent.writeFile true] ++
    (if i + 1 < maxRetries then [GHEvent.delayMs (100 * 2 ^ i)] else []))

/-- Expected wrapper trace of consecutive all-conflict wrapper attempts
`a, …, a+k-1` out of `maxRetries`: cache-bypassed array re-fetch, inner
`saveData` call with `maxRetries = 1` whose single attempt conflicts, and a
backoff of `150 * 2 ^ i` ms whenever attempt `i` is not the last one. -/
def wrapperConflictTrace (maxRetries a k : Nat) : List WEvent :=
  (List.range' a k).flatMap (fun i =>
    [WEvent.fetchAll true,
     WEvent.saveDataCall 1 [GHEvent.readFile true, GHEvent.writeFile true]] ++
    (if i + 1 < maxRetries then [WEvent.delayMs (150 * 2 ^ i)] else []))

end GHProto

/-! ## A rendering grammar for quantity and servings strings

To state universal round-trip properties of `parseQuantity` and
`parseServings` we render structured tokens (digit lists, decimal
separators, fractions) to strings and relate the parse result to the
tokens' mathematical value. -/

/-- The character of a decimal digit. -/
def digitChar (d : Fin 10) : Char := Char.ofNat (48 + d.val)

/-- Render a digit list, most significant first. -/
def renderDigits (ds : List (Fin 10)) : List Char := ds.map digitChar

/-- Value of a digit list. -/
def digitsVal (ds : List (Fin 10)) : Nat := ds.foldl (fun a d => 10 * a + d.val) 0

/-- Value of a decimal literal with integer digits `ip` and fraction digits
`fp`. -/
def decVal (ip fp : List (Fin 10)) : Rat :=
  (digitsVal ip : Rat) + (digitsVal fp : Rat) / (10 : Rat) ^ fp.length

/-- One whitespace-separated token of a quantity string: a decimal literal
(with an optional separator, `some true` = comma) or a fraction
`digits / digits`. -/
inductive QtyTok where
  | dec (ip : List (Fin 10)) (sep : Option Bool) (fp : List (Fin 10)) : QtyTok
  | frac (num den : List (Fin 10)) : QtyTok

/-- The rendered separator character. -/
def sepChar (comma : Bool) : Char := if comma then ',' else '.'

/-- Render one token. -/
def renderTok : QtyTok → List Char
  | QtyTok.dec ip none _ => renderDigits ip
  | QtyTok.dec ip (some comma) fp => renderDigits ip ++ sepChar comma :: renderDigits fp
  | QtyTok.frac n d => renderDigits n ++ '/' :: renderDigits d

/-- Mathematical value of one token. -/
def tokVal : QtyTok → Rat
  | QtyTok.dec ip none _ => (digitsVal ip : Rat)
  | QtyTok.dec ip (some _) fp => decVal ip fp
  | QtyTok.frac n d => (digitsVal n : Rat) / (digitsVal d : Rat)

/-- Well-formedness of a token: a separator-free decimal has integer digits
only; a decimal with separator has digits on at least one side; a fraction
has digits on both sides and a non-zero denominator. -/
def tokOK : QtyTok → Prop
  | QtyTok.dec ip none fp => ip ≠ [] ∧ fp = []
  | QtyTok.dec ip (some _) fp => ip ≠ [] ∨ fp ≠ []
  | QtyTok.frac n d => n ≠ [] ∧ d ≠ [] ∧ digitsVal d ≠ 0

/-- Whether the token renders a comma. -/
def tokComma : QtyTok → Bool
  | QtyTok.dec _ (some true) _ => true
  | _ => false

/-- Turn a comma separator into a dot (the effect of
`str.replace(',', '.')` on this token). -/
def decommaTok : QtyTok → QtyTok
  | QtyTok.dec ip (some _) fp => QtyTok.dec ip (some false) fp
  | t => t

/-- Whether the token is a fraction. -/
def isFracTok : QtyTok → Bool
  | QtyTok.frac _ _ => true
  | _ => false

/-- Render a token list joined by single spaces. -/
def renderLine : List QtyTok → List Char
  | [] => []
  | [t] => renderTok t
  | t :: ts => renderTok t ++ ' ' :: renderLine ts

/-! ## Shared helper lemmas -/

theorem mem_upsertBy_self {α : Type} (idOf : α → String) (x : α) :
    ∀ l : List α, x ∈ upsertBy idOf x l := by
  intro l
  induction l with
  | nil => simp [upsertBy]
  | cons y ys ih =>
    by_cases h : idOf y = idOf x <;> simp [upsertBy, h, ih]

theorem mem_upsertBy_of_mem {α : Type} (idOf : α → String) (z x : α)
    (l : List α) (hx : x ∈ l) (h : idOf z = idOf x → z = x) :
    x ∈ upsertBy idOf z l := by
  induction l with
  | nil => cases hx
  | cons y ys ih =>
    simp only [upsertBy]
    rcases List.mem_cons.mp hx with rfl | hmem
    · by_cases hy : idOf x = idOf z
      · have hzx : z = x := h hy.symm
        simp [hy, hzx]
      · simp [hy]
    · by_cases hy : idOf y = idOf z
      · simp [hy, List.mem_cons, hmem]
      · simp only [hy, if_false, List.mem_cons]
        exact Or.inr (ih hmem)

theorem localJoinAll_metadata_mono (metaMap : List RecipeMetadata) (x : RecipeMetadata)
    (hx : x = defaultMetadata x.id) :
    ∀ (rs : List Recipe) (s : LocalState), x ∈ s.metadata →
      x ∈ (LocalStore.joinAll metaMap rs s).2.metadata := by
  intro rs
  induction rs with
  | nil => intro s hs; simpa [LocalStore.joinAll] using hs
  | cons r0 rs ih =>
    intro s hs
    cases hfind : metaMap.find? (fun m => m.id == r0.id) with
    | some m => simpa [LocalStore.joinAll, hfind] using ih s hs
    | none =>
      simp only [LocalStore.joinAll, hfind]
      refine ih _ ?_
      simp only [LocalStore.createDefaultMetadata, LocalStore.saveMetadata]
      refine mem_upsertBy_of_mem _ _ _ _ hs ?_
      intro hid
      rw [hx]
      simp [defaultMetadata] at hid ⊢
      rw [hid]

theorem localJoinAll_default_mem (metaMap : List RecipeMetadata) (rs : List Recipe)
    (s : LocalState) (r : Recipe) (hr : r ∈ rs)
    (hm : metaMap.find? (fun m => m.id == r.id) = none) :
    (⟨r, defaultMetadata r.id⟩ : RecipeWithMeta) ∈ (LocalStore.joinAll metaMap rs s).1 ∧
      defaultMetadata r.id ∈ (LocalStore.joinAll metaMap rs s).2.metadata := by
  induction rs generalizing s with
  | nil => cases hr
  | cons r0 rs ih =>
    rcases List.mem_cons.mp hr with rfl | hmem
    · simp only [LocalStore.joinAll, hm]
      constructor
      · exact List.mem_cons_self _ _
      · refine localJoinAll_metadata_mono metaMap _ (by simp [defaultMetadata]) rs _ ?_
        simp only [LocalStore.createDefaultMetadata, LocalStore.saveMetadata]
        exact mem_upsertBy_self _ _ _
    · cases hfind : metaMap.find? (fun m => m.id == r0.id) with
      | some m =>
        have h := ih hmem (s := s)
        simpa [LocalStore.joinAll, hfind] using ⟨Or.inr h.1, h.2⟩
      | none =>
        have h := ih hmem (s := (LocalStore.createDefaultMetadata s r0.id).2)
        simpa [LocalStore.joinAll, hfind] using ⟨Or.inr h.1, h.2⟩

theorem ghJoinAll_metadata_mono (metaMap : List RecipeMetadata) (x : RecipeMetadata)
    (hx : x = defaultMetadata x.id) :
    ∀ (rs : List Recipe) (s : GHState), x ∈ GHStore.getAllMetadata s →
      x ∈ GHStore.getAllMetadata (GHStore.joinAll metaMap rs s).2 := by
  intro rs
  induction rs with
  | nil => intro s hs; simpa [GHStore.joinAll] using hs
  | cons r0 rs ih =>
    intro s hs
    cases hfind : metaMap.find? (fun m => m.id == r0.id) with
    | some m => simpa [GHStore.joinAll, hfind] using ih s hs
    | none =>
      simp only [GHStore.joinAll, hfind]
      refine ih _ ?_
      simp only [GHStore.createDefaultMetadata, GHStore.saveMetadata,
        GHStore.saveDataMetadata, GHStore.getAllMetadata]
      refine mem_upsertBy_of_mem _ _ _ _ hs ?_
      intro hid
      rw [hx]
      simp [defaultMetadata] at hid ⊢
      rw [hid]

theorem ghJoinAll_default_mem (metaMap : List RecipeMetadata) (rs : List Recipe)
    (s : GHState) (r : Recipe) (hr : r ∈ rs)
    (hm : metaMap.find? (fun m => m.id == r.id) = none) :
    (⟨r, defaultMetadata r.id⟩ : RecipeWithMeta) ∈ (GHStore.joinAll metaMap rs s).1 ∧
      defaultMetadata r.id ∈ GHStore.getAllMetadata (GHStore.joinAll metaMap rs s).2 := by
  induction rs generalizing s with
  | nil => cases hr
  | cons r0 rs ih =>
    rcases List.mem_cons.mp hr with rfl | hmem
    · simp only [GHStore.joinAll, hm]
      constructor
      · exact List.mem_cons_self _ _
      · refine ghJoinAll_metadata_mono metaMap _ (by simp [defaultMetadata]) rs _ ?_
        simp only [GHStore.createDefaultMetadata, GHStore.saveMetadata,
          GHStore.saveDataMetadata, GHStore.getAllMetadata]
        exact mem_upsertBy_self _ _ _
    · cases hfind : metaMap.find? (fun m => m.id == r0.id) with
      | some m =>
        have h := ih hmem (s := s)
        simpa [GHStore.joinAll, hfind] using ⟨Or.inr h.1, h.2⟩
      | none =>
        have h := ih hmem (s := (GHStore.createDefaultMetadata s r0.id).2)
        simpa [GHStore.joinAll, hfind] using ⟨Or.inr h.1, h.2⟩

/-! ## Claim theorems -/

/-- Claim C6: for every recipe id, `deleteRecipe` (on both backends) removes
exactly the recipe record and the metadata record bearing that id, and
leaves the planning and shopping-lists collections untouched — planning
entries that reference the deleted recipe are kept as dangling references. -/
theorem claim_C6_deleteRecipe_cascade_and_frame :
    ∀ (ls : LocalState) (gs : GHState) (id : String),
      ((LocalStore.deleteRecipe ls id).planning = ls.planning ∧
       (LocalStore.deleteRecipe ls id).shoppingLists = ls.shoppingLists ∧
       (∀ r : Recipe, r ∈ (LocalStore.deleteRecipe ls id).recipes ↔ r ∈ ls.recipes ∧ r.id ≠ id) ∧
       (∀ m : RecipeMetadata,
         m ∈ (LocalStore.deleteRecipe ls id).metadata ↔ m ∈ ls.metadata ∧ m.id ≠ id)) ∧
      ((GHStore.deleteRecipe gs id).planningFile = gs.planningFile ∧
       (GHStore.deleteRecipe gs id).shoppingFile = gs.shoppingFile ∧
       (∀ r : Recipe,
         r ∈ GHStore.getAllRecipes (GHStore.deleteRecipe gs id) ↔
           r ∈ GHStore.getAllRecipes gs ∧ r.id ≠ id) ∧
       (∀ m : RecipeMetadata,
         m ∈ GHStore.getAllMetadata (GHStore.deleteRecipe gs id) ↔
           m ∈ GHStore.getAllMetadata gs ∧ m.id ≠ id)) := by
  intro ls gs id
  refine ⟨⟨rfl, rfl, ?_, ?_⟩, ⟨rfl, rfl, ?_, ?_⟩⟩ <;>
    intro x <;>
    simp [LocalStore.deleteRecipe, GHStore.deleteRecipe, GHStore.getAllRecipes,
      GHStore.getAllMetadata, GHStore.saveDataRecipes, GHStore.saveDataMetadata,
      List.mem_filter]

/-- Claim C5: when a recipe record exists but its metadata record is absent,
the combined read returns the recipe joined with the freshly created default
metadata `{status: to-test, tags: [], history: []}` of the same id and
persists that default record to the active store at the moment of the read —
on both the local and the remote backend, for the single-recipe read and for
the read-all path. -/
theorem claim_C5_lazy_default_metadata :
    ∀ (ls : LocalState) (gs : GHState) (id : String) (r r' : Recipe),
      (LocalStore.getRecipe ls id = some r →
       LocalStore.getMetadata ls id = none →
       LocalStore.getRecipeWithMeta ls id =
         (some ⟨r, defaultMetadata id⟩, LocalStore.saveMetadata ls (defaultMetadata id)) ∧
       defaultMetadata id ∈ (LocalStore.getRecipeWithMeta ls id).2.metadata) ∧
      (GHStore.getRecipe gs id = some r' →
       GHStore.getMetadata gs id = none →
       GHStore.getRecipeWithMeta gs id =
         (some ⟨r', defaultMetadata id⟩, GHStore.saveMetadata gs (defaultMetadata id)) ∧
       defaultMetadata id ∈ GHStore.getAllMetadata (GHStore.getRecipeWithMeta gs id).2) ∧
      (r ∈ ls.recipes → LocalStore.getMetadata ls r.id = none →
       (⟨r, defaultMetadata r.id⟩ : RecipeWithMeta) ∈ (LocalStore.getAllRecipesWithMeta ls).1 ∧
       defaultMetadata r.id ∈ (LocalStore.getAllRecipesWithMeta ls).2.metadata) ∧
      (r' ∈ GHStore.getAllRecipes gs → GHStore.getMetadata gs r'.id = none →
       (⟨r', defaultMetadata r'.id⟩ : RecipeWithMeta) ∈ (GHStore.getAllRecipesWithMeta gs).1 ∧
       defaultMetadata r'.id ∈ GHStore.getAllMetadata (GHStore.getAllRecipesWithMeta gs).2) := by
  intro ls gs id r r'
  refine ⟨?_, ?_, ?_, ?_⟩
  · intro hr hm
    constructor
    · simp [LocalStore.getRecipeWithMeta, hr, hm, LocalStore.createDefaultMetadata]
    · simp [LocalStore.getRecipeWithMeta, hr, hm, LocalStore.createDefaultMetadata,
        LocalStore.saveMetadata]
      exact mem_upsertBy_self _ _ _
  · intro hr hm
    constructor
    · simp [GHStore.getRecipeWithMeta, hr, hm, GHStore.createDefaultMetadata]
    · simp [GHStore.getRecipeWithMeta, hr, hm, GHStore.createDefaultMetadata,
        GHStore.saveMetadata, GHStore.saveDataMetadata, GHStore.getAllMetadata]
      exact mem_upsertBy_self _ _ _
  · intro hr hm
    exact localJoinAll_default_mem ls.metadata ls.recipes ls r hr hm
  · intro hr hm
    exact ghJoinAll_default_mem (GHStore.getAllMetadata gs) (GHStore.getAllRecipes gs) gs r' hr
      (by simpa [GHStore.getMetadata] using hm)

/-- Claim C7: running the local-to-remote migration twice in a row — the
second run seeing either the same local data or an already cleared local
store — leaves the four remote dataset files exactly as a single run does
(no duplicated records), and a run that finds all four local collections
empty reports success without touching the remote state at all. -/
theorem claim_C7_migration_idempotent :
    ∀ (ls : LocalState) (gh : GHState) (now1 now2 : String),
      (DataService.migrateToGitHub true ls
          (DataService.migrateToGitHub true ls gh now1).2 now2).2 =
        (DataService.migrateToGitHub true ls gh now1).2 ∧
      (DataService.migrateToGitHub true LocalStore.clearAllData
          (DataService.migrateToGitHub true ls gh now1).2 now2).2 =
        (DataService.migrateToGitHub true ls gh now1).2 ∧
      (ls.recipes = [] → ls.metadata = [] → ls.planning = [] → ls.shoppingLists = [] →
        DataService.migrateToGitHub true ls gh now1 = (true, gh)) := by
  intro ls gh now1 now2
  by_cases hc : (ls.recipes.isEmpty && ls.metadata.isEmpty &&
      ls.planning.isEmpty && ls.shoppingLists.isEmpty) = true
  · refine ⟨?_, ?_, ?_⟩ <;>
      simp [DataService.migrateToGitHub, LocalStore.exportAllData, LocalStore.clearAllData, hc]
  · refine ⟨?_, ?_, ?_⟩
    · simp only [DataService.migrateToGitHub, LocalStore.exportAllData, hc,
        GHStore.importAllData, GHStore.initializeDataFolder, GHStore.saveDataRecipes,
        GHStore.saveDataMetadata, GHStore.saveDataPlanning, GHStore.saveDataShopping]
      by_cases hg : gh.gitkeep <;> simp [hg]
    · simp only [DataService.migrateToGitHub, LocalStore.exportAllData,
        LocalStore.clearAllData, hc, GHStore.importAllData, GHStore.initializeDataFolder,
        GHStore.saveDataRecipes, GHStore.saveDataMetadata, GHStore.saveDataPlanning,
        GHStore.saveDataShopping]
      by_cases hg : gh.gitkeep <;> simp [hg]
    · intro h1 h2 h3 h4
      exfalso
      simp [h1, h2, h3, h4] at hc

/-- Witness for claim C7: a migration that finds all four local collections
empty succeeds and leaves a concrete remote state untouched. -/
theorem claim_C7_witness :
    DataService.migrateToGitHub true
      ⟨[], [], [], []⟩ ⟨none, none, none, none, false⟩ "2026-01-01" =
      (true, ⟨none, none, none, none, false⟩) :=
  (claim_C7_migration_idempotent ⟨[], [], [], []⟩ ⟨none, none, none, none, false⟩
    "2026-01-01" "2026-01-01").2.2 rfl rfl rfl rfl

/-- Claim C10: a remote dataset file whose decoded content is not valid JSON
is read as an empty array — indistinguishable, at the `getData` interface,
from a missing file or an empty file — and the array a subsequent
single-record save would build from it is just the one saved record. -/
theorem claim_C10_corrupted_dataset_reads_empty :
    ∀ (content : String) (m : Json),
      parseJson content = none →
      GHContent.getData (some content) = Json.arr [] ∧
      GHContent.getData (some content) = GHContent.getData none ∧
      GHContent.getData (some content) = GHContent.getData (some "") ∧
      GHContent.upsertJson m [] = [m] := by
  intro content m h
  have h1 : GHContent.getData (some content) = Json.arr [] := by
    simp [GHContent.getData, h]
  have h2 : GHContent.getData (some "") = Json.arr [] := rfl
  exact ⟨h1, h1.trans rfl, h1.trans h2.symm, rfl⟩

/-- Witness for claim C10: a concrete corrupted file content. -/
theorem claim_C10_witness :
    parseJson "recipes corrupted" = none ∧
      GHContent.getData (some "recipes corrupted") = Json.arr [] :=
  ⟨rfl, (claim_C10_corrupted_dataset_reads_empty "recipes corrupted" Json.null rfl).1⟩

/-- Witness for claim C5: a store holding one recipe and no metadata; the
combined read joins in the default metadata and persists it, on both
backends. -/
theorem claim_C5_witness :
    LocalStore.getRecipeWithMeta
        ⟨[⟨"r1", "Tarte", none, none, none, 4, [], [], none, "c", "u"⟩], [], [], []⟩ "r1" =
      (some ⟨⟨"r1", "Tarte", none, none, none, 4, [], [], none, "c", "u"⟩, defaultMetadata "r1"⟩,
        LocalStore.saveMetadata
          ⟨[⟨"r1", "Tarte", none, none, none, 4, [], [], none, "c", "u"⟩], [], [], []⟩
          (defaultMetadata "r1")) ∧
    GHStore.getRecipeWithMeta
        ⟨some [⟨"r1", "Tarte", none, none, none, 4, [], [], none, "c", "u"⟩], none, none, none, true⟩ "r1" =
      (some ⟨⟨"r1", "Tarte", none, none, none, 4, [], [], none, "c", "u"⟩, defaultMetadata "r1"⟩,
        GHStore.saveMetadata
          ⟨some [⟨"r1", "Tarte", none, none, none, 4, [], [], none, "c", "u"⟩], none, none, none, true⟩
          (defaultMetadata "r1")) :=
  ⟨((claim_C5_lazy_default_metadata
      ⟨[⟨"r1", "Tarte", none, none, none, 4, [], [], none, "c", "u"⟩], [], [], []⟩
      ⟨some [⟨"r1", "Tarte", none, none, none, 4, [], [], none, "c", "u"⟩], none, none, none, true⟩
      "r1" ⟨"r1", "Tarte", none, none, none, 4, [], [], none, "c", "u"⟩
      ⟨"r1", "Tarte", none, none, none, 4, [], [], none, "c", "u"⟩).1 rfl rfl).1,
   ((claim_C5_lazy_default_metadata
      ⟨[⟨"r1", "Tarte", none, none, none, 4, [], [], none, "c", "u"⟩], [], [], []⟩
      ⟨some [⟨"r1", "Tarte", none, none, none, 4, [], [], none, "c", "u"⟩], none, none, none, true⟩
      "r1" ⟨"r1", "Tarte", none, none, none, 4, [], [], none, "c", "u"⟩
      ⟨"r1", "Tarte", none, none, none, 4, [], [], none, "c", "u"⟩).2.1 rfl rfl).1⟩

/-- Counterexample to claim C3 as stated: `piece` is a key of
`normalizeUnit`'s mapping table, yet the unit-word alternation of
`parseIngredientString`'s first pattern does not match it (likewise its
variants `pieces`, `pièce`, `pièces`), so the two lists are not in lockstep. -/
theorem claim_C3_counterexample :
    "piece" ∈ unitMapKeys ∧ matchesUnitAlt "piece" = false := by
  constructor
  · simp [unitMapKeys, unitMap]
  · rfl

/-- Claim C3 (amended): every key of `normalizeUnit`'s mapping table — except
the four count-unit keys `piece`, `pieces`, `pièce`, `pièces`, which the
alternation omits — is matched in full by the unit-word alternation of
`parseIngredientString`'s first pattern. -/
theorem claim_C3_unit_keys_matched :
    ∀ k ∈ unitMapKeys,
      k ∉ (["piece", "pieces", "pièce", "pièces"] : List String) →
      matchesUnitAlt k = true := by
  decide

/-- Witness for claim C3 (amended) at the key `cups`. -/
theorem claim_C3_witness :
    "cups" ∈ unitMapKeys ∧
      "cups" ∉ (["piece", "pieces", "pièce", "pièces"] : List String) ∧
      matchesUnitAlt "cups" = true :=
  ⟨by simp [unitMapKeys, unitMap], by decide,
    claim_C3_unit_keys_matched "cups" (by simp [unitMapKeys, unitMap]) (by decide)⟩

/-- Claim C8: `extractJsonLd` returns exactly the flattening of the JSON-LD
script blocks that parse as valid JSON — an array block contributes its
elements, any other parsed value contributes itself, and an invalid block
contributes nothing without aborting the scan; a page with no block yields
the empty list. -/
theorem claim_C8_extractJsonLd_flattening :
    ∀ html : String,
      extractJsonLd html = (ldJsonBlocks html).flatMap (fun b => ldBlockItems b.data) ∧
      (ldJsonBlocks html = [] → extractJsonLd html = []) := by
  intro html
  have main : ∀ (n : Nat) (cs : List Char),
      extractJsonLdScan n cs = (ldJsonBlocksScan n cs).flatMap (fun b => ldBlockItems b.data) := by
    intro n
    induction n with
    | zero => intro cs; rfl
    | succ n ih =>
      intro cs
      simp only [extractJsonLdScan, ldJsonBlocksScan]
      cases h : findScriptBlock cs with
      | none => rfl
      | some p => simp [List.flatMap_cons, ih p.2]
  refine ⟨main _ _, fun h => ?_⟩
  have := main html.data.length html.data
  simp only [extractJsonLd, ldJsonBlocks] at *
  rw [this, h]
  rfl

/-- Witness for claim C8: markup with no JSON-LD block yields the empty
list. -/
theorem claim_C8_witness :
    ldJsonBlocks "<p>hello</p>" = [] ∧ extractJsonLd "<p>hello</p>" = [] :=
  ⟨rfl, (claim_C8_extractJsonLd_flattening "<p>hello</p>").2 rfl⟩

namespace GHProto

theorem conflictTrace_zero (maxRetries a : Nat) : conflictTrace maxRetries a 0 = [] := by
  simp [conflictTrace]

theorem conflictTrace_succ (maxRetries a k : Nat) :
    conflictTrace maxRetries a (k + 1) =
      ([GHEvent.readFile true, GHEvent.writeFile true] ++
        (if a + 1 < maxRetries then [GHEvent.delayMs (100 * 2 ^ a)] else [])) ++
        conflictTrace maxRetries (a + 1) k := by
  simp [conflictTrace, List.range'_succ]

theorem wrapperConflictTrace_zero (maxRetries a : Nat) : wrapperConflictTrace maxRetries a 0 = [] := by
  simp [wrapperConflictTrace]

theorem wrapperConflictTrace_succ (maxRetries a k : Nat) :
    wrapperConflictTrace maxRetries a (k + 1) =
      ([WEvent.fetchAll true,
        WEvent.saveDataCall 1 [GHEvent.readFile true, GHEvent.writeFile true]] ++
        (if a + 1 < maxRetries then [WEvent.delayMs (150 * 2 ^ a)] else [])) ++
        wrapperConflictTrace maxRetries (a + 1) k := by
  simp [wrapperConflictTrace, List.range'_succ]

theorem saveDataGo_allConflict :
    ∀ (k a : Nat) (schedule : Nat → Bool) (maxRetries : Nat),
      maxRetries = a + (k + 1) →
      (∀ i, a ≤ i → i < maxRetries → schedule i = true) →
      saveDataGo schedule maxRetries a (k + 1) =
        (conflictTrace maxRetries a (k + 1), SaveOutcome.conflictError) := by
  intro k
  induction k with
  | zero =>
    intro a schedule maxRetries hmr hs
    have ha : schedule a = true := hs a (Nat.le_refl a) (by omega)
    have hlast : ¬ (a + 1 < maxRetries) := by omega
    simp [saveDataGo, ha, hlast, conflictTrace_succ, conflictTrace_zero]
  | succ k ih =>
    intro a schedule maxRetries hmr hs
    have ha : schedule a = true := hs a (Nat.le_refl a) (by omega)
    have hlt : a + 1 < maxRetries := by omega
    have hrest := ih (a + 1) schedule maxRetries (by omega)
      (fun i h1 h2 => hs i (by omega) h2)
    have step : saveDataGo schedule maxRetries a (k + 1 + 1) =
        (GHEvent.readFile true :: GHEvent.writeFile true ::
          GHEvent.delayMs (100 * 2 ^ a) :: (saveDataGo schedule maxRetries (a + 1) (k + 1)).1,
          (saveDataGo schedule maxRetries (a + 1) (k + 1)).2) := by
      simp [saveDataGo, ha, hlt]
    rw [step, hrest]
    simp [conflictTrace_succ, hlt]

theorem saveDataGo_success :
    ∀ (j a remaining : Nat) (schedule : Nat → Bool) (maxRetries : Nat),
      a + remaining = maxRetries → a + j < maxRetries →
      (∀ i, a ≤ i → i < a + j → schedule i = true) → schedule (a + j) = false →
      saveDataGo schedule maxRetries a remaining =
        (conflictTrace maxRetries a j ++
          [GHEvent.readFile true, GHEvent.writeFile false, GHEvent.readFile false],
          SaveOutcome.success) := by
  intro j
  induction j with
  | zero =>
    intro a remaining schedule maxRetries hmr hj _ hf
    obtain ⟨r, rfl⟩ : ∃ r, remaining = r + 1 := ⟨remaining - 1, by omega⟩
    simp only [Nat.add_zero] at hf
    simp [saveDataGo, hf, conflictTrace_zero]
  | succ j ih =>
    intro a remaining schedule maxRetries hmr hj hs hf
    obtain ⟨r, rfl⟩ : ∃ r, remaining = r + 1 := ⟨remaining - 1, by omega⟩
    have ha : schedule a = true := hs a (Nat.le_refl a) (by omega)
    have hlt : a + 1 < maxRetries := by omega
    have harg : a + 1 + j = a + (j + 1) := by omega
    have hrest := ih (a + 1) r schedule maxRetries (by omega) (by omega)
      (fun i h1 h2 => hs i (by omega) (by omega)) (by rw [harg]; exact hf)
    have step : saveDataGo schedule maxRetries a (r + 1) =
        (GHEvent.readFile true :: GHEvent.writeFile true ::
          GHEvent.delayMs (100 * 2 ^ a) :: (saveDataGo schedule maxRetries (a + 1) r).1,
          (saveDataGo schedule maxRetries (a + 1) r).2) := by
      simp [saveDataGo, ha, hlt]
    rw [step, hrest]
    simp [conflictTrace_succ, hlt]

theorem saveDataRun_one_conflict (schedule : Nat → Bool) (h : schedule 0 = true) :
    saveDataRun schedule 1 =
      ([GHEvent.readFile true, GHEvent.writeFile true], SaveOutcome.conflictError) := by
  simp [saveDataRun, saveDataGo, h]

theorem saveDataRun_one_success (schedule : Nat → Bool) (h : schedule 0 = false) :
    saveDataRun schedule 1 =
      ([GHEvent.readFile true, GHEvent.writeFile false, GHEvent.readFile false],
        SaveOutcome.success) := by
  simp [saveDataRun, saveDataGo, h]

theorem saveSingleGo_allConflict :
    ∀ (k a : Nat) (schedule : Nat → Bool) (maxRetries : Nat),
      maxRetries = a + (k + 1) →
      (∀ i, a ≤ i → i < maxRetries → schedule i = true) →
      saveSingleGo schedule maxRetries a (k + 1) =
        (wrapperConflictTrace maxRetries a (k + 1), SaveOutcome.conflictError) := by
  intro k
  induction k with
  | zero =>
    intro a schedule maxRetries hmr hs
    have ha : schedule a = true := hs a (Nat.le_refl a) (by omega)
    have hlast : ¬ (a + 1 < maxRetries) := by omega
    simp [saveSingleGo, saveDataRun_one_conflict (fun _ => schedule a) ha, hlast,
      wrapperConflictTrace_succ, wrapperConflictTrace_zero]
  | succ k ih =>
    intro a schedule maxRetries hmr hs
    have ha : schedule a = true := hs a (Nat.le_refl a) (by omega)
    have hlt : a + 1 < maxRetries := by omega
    have hrest := ih (a + 1) schedule maxRetries (by omega)
      (fun i h1 h2 => hs i (by omega) h2)
    have step : saveSingleGo schedule maxRetries a (k + 1 + 1) =
        (WEvent.fetchAll true ::
          WEvent.saveDataCall 1 [GHEvent.readFile true, GHEvent.writeFile true] ::
          WEvent.delayMs (150 * 2 ^ a) :: (saveSingleGo schedule maxRetries (a + 1) (k + 1)).1,
          (saveSingleGo schedule maxRetries (a + 1) (k + 1)).2) := by
      simp [saveSingleGo, saveDataRun_one_conflict (fun _ => schedule a) ha, hlt]
    rw [step, hrest]
    simp [wrapperConflictTrace_succ, hlt]

theorem saveSingleGo_success :
    ∀ (j a remaining : Nat) (schedule : Nat → Bool) (maxRetries : Nat),
      a + remaining = maxRetries → a + j < maxRetries →
      (∀ i, a ≤ i → i < a + j → schedule i = true) → schedule (a + j) = false →
      saveSingleGo schedule maxRetries a remaining =
        (wrapperConflictTrace maxRetries a j ++
          [WEvent.fetchAll true,
           WEvent.saveDataCall 1
             [GHEvent.readFile true, GHEvent.writeFile false, GHEvent.readFile false]],
          SaveOutcome.success) := by
  intro j
  induction j with
  | zero =>
    intro a remaining schedule maxRetries hmr hj _ hf
    obtain ⟨r, rfl⟩ : ∃ r, remaining = r + 1 := ⟨remaining - 1, by omega⟩
    simp only [Nat.add_zero] at hf
    simp [saveSingleGo, saveDataRun_one_success (fun _ => schedule a) hf,
      wrapperConflictTrace_zero]
  | succ j ih =>
    intro a remaining schedule maxRetries hmr hj hs hf
    obtain ⟨r, rfl⟩ : ∃ r, remaining = r + 1 := ⟨remaining - 1, by omega⟩
    have ha : schedule a = true := hs a (Nat.le_refl a) (by omega)
    have hlt : a + 1 < maxRetries := by omega
    have harg : a + 1 + j = a + (j + 1) := by omega
    have hrest := ih (a + 1) r schedule maxRetries (by omega) (by omega)
      (fun i h1 h2 => hs i (by omega) (by omega)) (by rw [harg]; exact hf)
    have step : saveSingleGo schedule maxRetries a (r + 1) =
        (WEvent.fetchAll true ::
          WEvent.saveDataCall 1 [GHEvent.readFile true, GHEvent.writeFile true] ::
          WEvent.delayMs (150 * 2 ^ a) :: (saveSingleGo schedule maxRetries (a + 1) r).1,
          (saveSingleGo schedule maxRetries (a + 1) r).2) := by
      simp [saveSingleGo, saveDataRun_one_conflict (fun _ => schedule a) ha, hlt]
    rw [step, hrest]
    simp [wrapperConflictTrace_succ, hlt]

end GHProto

/-- Claim C1: `saveData` with `maxRetries` attempts re-reads the file with
the cache bypassed at the start of every attempt (supplying the fresh sha to
the write); a conflicting write with attempts remaining is retried after a
`100 * 2 ^ attempt` ms backoff; a committing write is followed by exactly one
cache-refreshing re-read and the call returns; and when every attempt
conflicts the call surfaces the conflict error to the caller instead of
overwriting. -/
theorem claim_C1_saveData_retry_protocol :
    ∀ (maxRetries : Nat) (schedule : Nat → Bool),
      1 ≤ maxRetries →
      ((∀ i, i < maxRetries → schedule i = true) →
        GHProto.saveDataRun schedule maxRetries =
          (GHProto.conflictTrace maxRetries 0 maxRetries, GHProto.SaveOutcome.conflictError)) ∧
      (∀ j, j < maxRetries → (∀ i, i < j → schedule i = true) → schedule j = false →
        GHProto.saveDataRun schedule maxRetries =
          (GHProto.conflictTrace maxRetries 0 j ++
            [GHProto.GHEvent.readFile true, GHProto.GHEvent.writeFile false,
             GHProto.GHEvent.readFile false],
            GHProto.SaveOutcome.success)) := by
  intro maxRetries schedule h1
  constructor
  · intro hall
    obtain ⟨k, rfl⟩ : ∃ k, maxRetries = k + 1 := ⟨maxRetries - 1, by omega⟩
    exact GHProto.saveDataGo_allConflict k 0 schedule (k + 1) (by omega)
      (fun i _ h2 => hall i h2)
  · intro j hj hs hf
    exact GHProto.saveDataGo_success j 0 maxRetries schedule maxRetries (by omega)
      (by omega) (fun i _ h2 => hs i (by omega)) (by simpa using hf)

/-- Witness for claim C1 at `maxRetries = 3`: an always-conflicting schedule
exhausts the three attempts with 100 ms and 200 ms backoffs and raises the
conflict; a schedule that conflicts only on attempt 0 succeeds on attempt 1
after one backoff, with a final cache-refreshing read. -/
theorem claim_C1_witness :
    GHProto.saveDataRun (fun _ => true) 3 =
      ([GHProto.GHEvent.readFile true, GHProto.GHEvent.writeFile true,
        GHProto.GHEvent.delayMs 100,
        GHProto.GHEvent.readFile true, GHProto.GHEvent.writeFile true,
        GHProto.GHEvent.delayMs 200,
        GHProto.GHEvent.readFile true, GHProto.GHEvent.writeFile true],
        GHProto.SaveOutcome.conflictError) ∧
    GHProto.saveDataRun (fun i => i != 1) 3 =
      ([GHProto.GHEvent.readFile true, GHProto.GHEvent.writeFile true,
        GHProto.GHEvent.delayMs 100,
        GHProto.GHEvent.readFile true, GHProto.GHEvent.writeFile false,
        GHProto.GHEvent.readFile false],
        GHProto.SaveOutcome.success) :=
  ⟨((claim_C1_saveData_retry_protocol 3 (fun _ => true) (by decide)).1
      (fun i _ => rfl)).trans (by decide),
   ((claim_C1_saveData_retry_protocol 3 (fun i => i != 1) (by decide)).2 1
      (by decide) (by decide) (by decide)).trans (by decide)⟩

/-- Claim C2: the conflict-retry loop sits at different layers per entity
kind.  `saveMetadata`, `savePlanningEntry` and `saveShoppingList` loop up to
3 attempts at the wrapper layer with a 150 ms base exponential backoff,
re-fetching the full dataset array cache-bypassed at the start of every
attempt and calling `saveData` with `maxRetries = 1`; bulk recipe writes
instead run `saveData` itself with 3 attempts and a 100 ms base delay. -/
theorem claim_C2_retry_layering :
    ∀ schedule : Nat → Bool,
      ((∀ i, i < 3 → schedule i = true) →
        GHProto.saveMetadataRun schedule =
          (GHProto.wrapperConflictTrace 3 0 3, GHProto.SaveOutcome.conflictError) ∧
        GHProto.savePlanningEntryRun schedule =
          (GHProto.wrapperConflictTrace 3 0 3, GHProto.SaveOutcome.conflictError) ∧
        GHProto.saveShoppingListRun schedule =
          (GHProto.wrapperConflictTrace 3 0 3, GHProto.SaveOutcome.conflictError) ∧
        GHProto.saveRecipeRun schedule =
          (GHProto.conflictTrace 3 0 3, GHProto.SaveOutcome.conflictError)) ∧
      (∀ j, j < 3 → (∀ i, i < j → schedule i = true) → schedule j = false →
        GHProto.saveMetadataRun schedule =
          (GHProto.wrapperConflictTrace 3 0 j ++
            [GHProto.WEvent.fetchAll true,
             GHProto.WEvent.saveDataCall 1
               [GHProto.GHEvent.readFile true, GHProto.GHEvent.writeFile false,
                GHProto.GHEvent.readFile false]],
            GHProto.SaveOutcome.success) ∧
        GHProto.savePlanningEntryRun schedule =
          (GHProto.wrapperConflictTrace 3 0 j ++
            [GHProto.WEvent.fetchAll true,
             GHProto.WEvent.saveDataCall 1
               [GHProto.GHEvent.readFile true, GHProto.GHEvent.writeFile false,
                GHProto.GHEvent.readFile false]],
            GHProto.SaveOutcome.success) ∧
        GHProto.saveShoppingListRun schedule =
          (GHProto.wrapperConflictTrace 3 0 j ++
            [GHProto.WEvent.fetchAll true,
             GHProto.WEvent.saveDataCall 1
               [GHProto.GHEvent.readFile true, GHProto.GHEvent.writeFile false,
                GHProto.GHEvent.readFile false]],
            GHProto.SaveOutcome.success) ∧
        GHProto.saveRecipeRun schedule =
          (GHProto.conflictTrace 3 0 j ++
            [GHProto.GHEvent.readFile true, GHProto.GHEvent.writeFile false,
             GHProto.GHEvent.readFile false],
            GHProto.SaveOutcome.success)) := by
  intro schedule
  constructor
  · intro hall
    have hw := GHProto.saveSingleGo_allConflict 2 0 schedule 3 (by omega)
      (fun i _ h2 => hall i h2)
    have hr := GHProto.saveDataGo_allConflict 2 0 schedule 3 (by omega)
      (fun i _ h2 => hall i h2)
    exact ⟨hw, hw, hw, hr⟩
  · intro j hj hs hf
    have hw := GHProto.saveSingleGo_success j 0 3 schedule 3 (by omega) (by omega)
      (fun i _ h2 => hs i (by omega)) (by simpa using hf)
    have hr := GHProto.saveDataGo_success j 0 3 schedule 3 (by omega) (by omega)
      (fun i _ h2 => hs i (by omega)) (by simpa using hf)
    exact ⟨hw, hw, hw, hr⟩

/-- Witness for claim C2 at concrete schedules: all three wrapper traces
(150/300 ms backoffs, inner `saveData` calls with `maxRetries = 1`) and the
bulk-recipe trace (100/200 ms backoffs inside `saveData`). -/
theorem claim_C2_witness :
    GHProto.saveMetadataRun (fun _ => true) =
      ([GHProto.WEvent.fetchAll true,
        GHProto.WEvent.saveDataCall 1 [GHProto.GHEvent.readFile true, GHProto.GHEvent.writeFile true],
        GHProto.WEvent.delayMs 150,
        GHProto.WEvent.fetchAll true,
        GHProto.WEvent.saveDataCall 1 [GHProto.GHEvent.readFile true, GHProto.GHEvent.writeFile true],
        GHProto.WEvent.delayMs 300,
        GHProto.WEvent.fetchAll true,
        GHProto.WEvent.saveDataCall 1 [GHProto.GHEvent.readFile true, GHProto.GHEvent.writeFile true]],
        GHProto.SaveOutcome.conflictError) ∧
    GHProto.saveShoppingListRun (fun i => i != 1) =
      ([GHProto.WEvent.fetchAll true,
        GHProto.WEvent.saveDataCall 1 [GHProto.GHEvent.readFile true, GHProto.GHEvent.writeFile true],
        GHProto.WEvent.delayMs 150,
        GHProto.WEvent.fetchAll true,
        GHProto.WEvent.saveDataCall 1
          [GHProto.GHEvent.readFile true, GHProto.GHEvent.writeFile false,
           GHProto.GHEvent.readFile false]],
        GHProto.SaveOutcome.success) :=
  ⟨((claim_C2_retry_layering (fun _ => true)).1 (fun i _ => rfl)).1.trans (by decide),
   (((claim_C2_retry_layering (fun i => i != 1)).2 1 (by decide) (by decide) (by decide)).2.2.1).trans
     (by decide)⟩

/-! ### Digit-rendering lemmas -/

theorem digitChar_isDigit : ∀ d : Fin 10, isDigitCh (digitChar d) = true := by decide

theorem digitChar_not_ws : ∀ d : Fin 10, isJsWs (digitChar d) = false := by decide

theorem digitChar_ne_minus : ∀ d : Fin 10, digitChar d ≠ '-' := by decide

theorem digitChar_ne_plus : ∀ d : Fin 10, digitChar d ≠ '+' := by decide

theorem digitChar_toNat (d : Fin 10) : (digitChar d).toNat - 48 = d.val := by
  revert d; decide

theorem digitChar_eq_zeroChar : ∀ d : Fin 10, digitChar d = '0' → d = 0 := by decide

theorem takeWhile_digits_append (ds : List (Fin 10)) (rest : List Char) :
    (renderDigits ds ++ rest).takeWhile isDigitCh =
      renderDigits ds ++ rest.takeWhile isDigitCh := by
  induction ds with
  | nil => rfl
  | cons d ds ih => simp [renderDigits, List.takeWhile_cons, digitChar_isDigit d] at ih ⊢; exact ih

theorem dropWhile_digits_append (ds : List (Fin 10)) (rest : List Char) :
    (renderDigits ds ++ rest).dropWhile isDigitCh = rest.dropWhile isDigitCh := by
  induction ds with
  | nil => rfl
  | cons d ds ih => simp [renderDigits, List.dropWhile_cons, digitChar_isDigit d] at ih ⊢; exact ih

theorem takeWhile_digits_all (ds : List (Fin 10)) :
    (renderDigits ds).takeWhile isDigitCh = renderDigits ds := by
  have h := takeWhile_digits_append ds []
  simpa using h

theorem takeWhile_not_digit_head (rest : List Char)
    (h : ∀ c, rest.head? = some c → isDigitCh c = false) :
    rest.takeWhile isDigitCh = [] := by
  cases rest with
  | nil => rfl
  | cons c cs => simp [List.takeWhile_cons, h c rfl]

theorem dropWhile_not_digit_head (rest : List Char)
    (h : ∀ c, rest.head? = some c → isDigitCh c = false) :
    rest.dropWhile isDigitCh = rest := by
  cases rest with
  | nil => rfl
  | cons c cs => simp [List.dropWhile_cons, h c rfl]

theorem digitsValC_render (ds : List (Fin 10)) :
    digitsValC (renderDigits ds) = digitsVal ds := by
  suffices h : ∀ a, (renderDigits ds).foldl (fun a c => 10 * a + (c.toNat - 48)) a =
      ds.foldl (fun a d => 10 * a + d.val) a by
    exact h 0
  induction ds with
  | nil => intro a; rfl
  | cons d ds ih =>
    intro a
    simp only [renderDigits, List.map_cons, List.foldl_cons] at ih ⊢
    rw [digitChar_toNat d]
    exact ih _

theorem digitsValC_map (ds : List (Fin 10)) :
    digitsValC (List.map digitChar ds) = digitsVal ds := digitsValC_render ds

theorem dropWhile_ws_digits (ds : List (Fin 10)) (rest : List Char) :
    (renderDigits ds ++ rest).dropWhile isJsWs =
      if ds = [] then rest.dropWhile isJsWs else renderDigits ds ++ rest := by
  cases ds with
  | nil => simp [renderDigits]
  | cons d ds => simp [renderDigits, List.dropWhile_cons, digitChar_not_ws d]

theorem readSign_digits (ds : List (Fin 10)) (rest : List Char) (h : ds ≠ []) :
    readSign (renderDigits ds ++ rest) = (false, renderDigits ds ++ rest) := by
  cases ds with
  | nil => exact absurd rfl h
  | cons d ds =>
    simp [renderDigits, readSign, digitChar_ne_minus d, digitChar_ne_plus d]

theorem parseIntL_renderDigits (ds : List (Fin 10)) (h : ds ≠ []) :
    parseIntL (renderDigits ds) = JSNum.fin (digitsVal ds) := by
  obtain ⟨d, ds', rfl⟩ : ∃ d ds', ds = d :: ds' := by
    cases ds with
    | nil => exact absurd rfl h
    | cons d ds' => exact ⟨d, ds', rfl⟩
  have hdrop : (renderDigits (d :: ds')).dropWhile isJsWs = renderDigits (d :: ds') := by
    have := dropWhile_ws_digits (d :: ds') []
    simpa using this
  have hsign : readSign (renderDigits (d :: ds')) = (false, renderDigits (d :: ds')) := by
    have := readSign_digits (d :: ds') [] (by simp)
    simpa using this
  have hTW : (renderDigits (d :: ds')).takeWhile isDigitCh = renderDigits (d :: ds') :=
    takeWhile_digits_all _
  have hNN : renderDigits (d :: ds') ≠ [] := by simp [renderDigits]
  have hv := digitsValC_render (d :: ds')
  simp only [parseIntL, hdrop, hsign]
  split
  · rename_i x rest heq
    have hds' : ds' ≠ [] := by
      intro h0
      subst h0
      simp [renderDigits] at heq
    obtain ⟨d2, ds'', rfl⟩ : ∃ d2 ds'', ds' = d2 :: ds'' := by
      cases ds' with
      | nil => exact absurd rfl hds'
      | cons d2 ds'' => exact ⟨d2, ds'', rfl⟩
    have hparts : digitChar d = '0' ∧ digitChar d2 = x ∧ renderDigits ds'' = rest := by
      simpa [renderDigits] using heq
    have hxd : ∀ e : Fin 10, ¬ (digitChar e = 'x' ∨ digitChar e = 'X') := by decide
    have hx : ¬ (x = 'x' ∨ x = 'X') := by
      rw [← hparts.2.1]
      exact hxd d2
    rw [if_neg hx, ← heq]
    simp [hTW, hNN, hv]
  · simp [hTW, hNN, hv]

theorem firstDigitRun_none (s : List Char) (h : ∀ c ∈ s, isDigitCh c = false) :
    firstDigitRun s = none := by
  induction s with
  | nil => rfl
  | cons c cs ih =>
    simp [firstDigitRun, h c (List.mem_cons_self c cs)]
    exact ih (fun c' hc' => h c' (List.mem_cons_of_mem c hc'))

theorem firstDigitRun_found (pre post : List Char) (ds : List (Fin 10))
    (hpre : ∀ c ∈ pre, isDigitCh c = false) (hds : ds ≠ [])
    (hpost : ∀ c, post.head? = some c → isDigitCh c = false) :
    firstDigitRun (pre ++ renderDigits ds ++ post) = some (renderDigits ds) := by
  induction pre with
  | nil =>
    obtain ⟨d, ds', rfl⟩ : ∃ d ds', ds = d :: ds' := by
      cases ds with
      | nil => exact absurd rfl hds
      | cons d ds' => exact ⟨d, ds', rfl⟩
    have hTW : (renderDigits (d :: ds') ++ post).takeWhile isDigitCh =
        renderDigits (d :: ds') := by
      rw [takeWhile_digits_append, takeWhile_not_digit_head post hpost, List.append_nil]
    have hcons : ([] : List Char) ++ renderDigits (d :: ds') ++ post =
        digitChar d :: (renderDigits ds' ++ post) := by simp [renderDigits]
    rw [hcons]
    simp only [firstDigitRun, digitChar_isDigit d, if_true]
    rw [show digitChar d :: (renderDigits ds' ++ post) = renderDigits (d :: ds') ++ post
      from by simp [renderDigits]]
    rw [hTW]
  | cons c pre ih =>
    have hc : isDigitCh c = false := hpre c (List.mem_cons_self c pre)
    simp only [List.cons_append, firstDigitRun, hc, Bool.false_eq_true, if_false]
    exact ih (fun c' hc' => hpre c' (List.mem_cons_of_mem c hc'))

/-- Counterexample to claim C9 as stated: a numeric yield of 0 is falsy in
JS, so `parseServings` returns the default 4 instead of passing the number
through. -/
theorem claim_C9_counterexample :
    parseServings (YieldValue.num 0) = Except.ok (JSNum.fin 4) ∧
      parseServings (YieldValue.num 0) ≠ Except.ok (JSNum.fin 0) := by
  constructor
  · rfl
  · intro h
    have := (Except.ok.injEq _ _).mp h
    simp at this

/-- Claim C9 (amended): `parseServings` passes a numeric yield through except
for 0 (falsy), which yields the default 4; a string, or the first element of
a non-empty array, contributes its first digit run (anywhere in the string,
not only leading) parsed as an integer, defaulting to 4 when there is no
digit; an absent yield gives 4; and an empty array makes the function throw
(`recipeYield[0]` is undefined). -/
theorem claim_C9_parseServings :
    (∀ q : Rat, q ≠ 0 → parseServings (YieldValue.num q) = Except.ok (JSNum.fin q)) ∧
    parseServings (YieldValue.num 0) = Except.ok (JSNum.fin 4) ∧
    parseServings YieldValue.undef = Except.ok (JSNum.fin 4) ∧
    (∀ (s : String) (l : List String),
      parseServings (YieldValue.arr (s :: l)) = parseServings (YieldValue.str s)) ∧
    parseServings (YieldValue.arr []) = Except.error () ∧
    (∀ (pre post : List Char) (ds : List (Fin 10)),
      (∀ c ∈ pre, isDigitCh c = false) → ds ≠ [] →
      (∀ c, post.head? = some c → isDigitCh c = false) →
      parseServings (YieldValue.str (String.mk (pre ++ renderDigits ds ++ post))) =
        Except.ok (JSNum.fin (digitsVal ds))) ∧
    (∀ s : String, (∀ c ∈ s.data, isDigitCh c = false) →
      parseServings (YieldValue.str s) = Except.ok (JSNum.fin 4)) := by
  refine ⟨?_, rfl, rfl, ?_, rfl, ?_, ?_⟩
  · intro q hq
    simp [parseServings, yieldFalsy, hq]
  · intro s l
    by_cases hs : s = ""
    · subst hs
      simp [parseServings, yieldFalsy, servingsFromStr, firstDigitRun]
    · have : (s == "") = false := by
        simp [hs]
      simp [parseServings, yieldFalsy, this]
  · intro pre post ds hpre hds hpost
    have hne : (String.mk (pre ++ renderDigits ds ++ post) == "") = false := by
      have h1 : pre ++ renderDigits ds ++ post ≠ [] := by
        intro h
        rcases List.append_eq_nil.mp h with ⟨h2, h3⟩
        rcases List.append_eq_nil.mp h2 with ⟨_, h4⟩
        exact hds (by simpa [renderDigits] using h4)
      simp only [beq_eq_false_iff_ne, ne_eq]
      intro h
      exact h1 (congrArg String.data h)
    simp only [parseServings, yieldFalsy, hne, Bool.false_eq_true, if_false]
    simp only [servingsFromStr]
    rw [firstDigitRun_found pre post ds hpre hds hpost]
    show Except.ok (parseIntL (renderDigits ds)) = _
    rw [parseIntL_renderDigits ds hds]
  · intro s hnd
    by_cases hs : s = ""
    · subst hs; rfl
    · have : (s == "") = false := by simp [hs]
      simp [parseServings, yieldFalsy, this, servingsFromStr, firstDigitRun_none s.data hnd]

/-- Witness for claim C9: a non-zero numeric yield passes through, and the
string `"env 6 parts"` yields 6 (digit run found mid-string). -/
theorem claim_C9_witness :
    parseServings (YieldValue.num 6) = Except.ok (JSNum.fin 6) ∧
      parseServings (YieldValue.str "env 6 parts") = Except.ok (JSNum.fin 6) := by
  constructor
  · exact claim_C9_parseServings.1 6 (by norm_num)
  · have h := claim_C9_parseServings.2.2.2.2.2.1
      ['e', 'n', 'v', ' '] [' ', 'p', 'a', 'r', 't', 's'] [(6 : Fin 10)]
      (by decide) (by decide) (by decide)
    have heq : String.mk (['e', 'n', 'v', ' '] ++ renderDigits [(6 : Fin 10)] ++
        [' ', 'p', 'a', 'r', 't', 's']) = "env 6 parts" := by decide
    rw [heq] at h
    simpa using h

/-! ### Character and list lemmas for the quantity grammar -/

theorem digitChar_ne_comma : ∀ d : Fin 10, digitChar d ≠ ',' := by decide

theorem digitChar_ne_dot : ∀ d : Fin 10, digitChar d ≠ '.' := by decide

theorem digitChar_ne_slash : ∀ d : Fin 10, digitChar d ≠ '/' := by decide

theorem comma_not_mem_renderDigits (ds : List (Fin 10)) : ',' ∉ renderDigits ds := by
  simp only [renderDigits, List.mem_map, not_exists]
  intro d
  intro ⟨_, h⟩
  exact digitChar_ne_comma d h

theorem slash_not_mem_renderDigits (ds : List (Fin 10)) : '/' ∉ renderDigits ds := by
  simp only [renderDigits, List.mem_map, not_exists]
  intro d
  intro ⟨_, h⟩
  exact digitChar_ne_slash d h

theorem contains_iff_mem (c : Char) : ∀ l : List Char, l.contains c = true ↔ c ∈ l := by
  intro l
  induction l with
  | nil => simp
  | cons x xs ih =>
    show (c == x || xs.contains c) = true ↔ _
    simp [ih, List.mem_cons]

theorem mem_of_head? {l : List Char} {c : Char} (h : l.head? = some c) : c ∈ l := by
  cases l with
  | nil => cases h
  | cons x xs => cases h; exact List.mem_cons_self _ _

theorem replaceFirst_not_mem (a b : Char) (l : List Char) (h : a ∉ l) :
    replaceFirst a b l = l := by
  induction l with
  | nil => rfl
  | cons c cs ih =>
    have hca : c ≠ a := fun hc => h (hc ▸ List.mem_cons_self c cs)
    simp only [replaceFirst, hca, if_false]
    rw [ih (fun hc => h (List.mem_cons_of_mem c hc))]

theorem replaceFirst_append_not_mem (a b : Char) (xs ys : List Char) (h : a ∉ xs) :
    replaceFirst a b (xs ++ ys) = xs ++ replaceFirst a b ys := by
  induction xs with
  | nil => rfl
  | cons c cs ih =>
    have hca : c ≠ a := fun hc => h (hc ▸ List.mem_cons_self c cs)
    have ih' := ih (fun hc => h (List.mem_cons_of_mem c hc))
    simp [replaceFirst, hca, ih']

theorem replaceFirst_hit (a b : Char) (xs ys : List Char) (h : a ∉ xs) :
    replaceFirst a b (xs ++ a :: ys) = xs ++ b :: ys := by
  rw [replaceFirst_append_not_mem a b xs (a :: ys) h]
  simp [replaceFirst]

theorem mem_replaceFirst {a b c : Char} :
    ∀ l : List Char, c ∈ replaceFirst a b l → c ∈ l ∨ c = b := by
  intro l
  induction l with
  | nil => intro h; cases h
  | cons x xs ih =>
    intro h
    by_cases hx : x = a
    · rw [show replaceFirst a b (x :: xs) = b :: xs from by simp [replaceFirst, hx]] at h
      rcases List.mem_cons.mp h with rfl | h2
      · exact Or.inr rfl
      · exact Or.inl (List.mem_cons_of_mem _ h2)
    · rw [show replaceFirst a b (x :: xs) = x :: replaceFirst a b xs from by
        simp [replaceFirst, hx]] at h
      rcases List.mem_cons.mp h with rfl | h2
      · exact Or.inl (List.mem_cons_self _ _)
      · rcases ih h2 with h3 | h3
        · exact Or.inl (List.mem_cons_of_mem _ h3)
        · exact Or.inr h3

theorem dropWhile_eq_self_of_head (p : Char → Bool) (l : List Char)
    (h : ∀ c, l.head? = some c → p c = false) : l.dropWhile p = l := by
  cases l with
  | nil => rfl
  | cons c cs => simp [List.dropWhile_cons, h c rfl]

theorem jsTrim_eq_self (l : List Char)
    (hhead : ∀ c, l.head? = some c → isJsWs c = false)
    (hlast : ∀ c, l.reverse.head? = some c → isJsWs c = false) :
    jsTrim l = l := by
  unfold jsTrim
  rw [dropWhile_eq_self_of_head _ _ hhead, dropWhile_eq_self_of_head _ _ hlast,
    List.reverse_reverse]

theorem jsTrim_eq_self_of_all (l : List Char) (h : ∀ c ∈ l, isJsWs c = false) :
    jsTrim l = l := by
  refine jsTrim_eq_self l (fun c hc => h c (mem_of_head? hc)) (fun c hc => h c ?_)
  exact List.mem_reverse.mp (mem_of_head? hc)

theorem mem_of_mem_jsTrim {c : Char} {l : List Char} (h : c ∈ jsTrim l) : c ∈ l := by
  unfold jsTrim at h
  have h1 := List.mem_reverse.mp h
  have h2 := (List.dropWhile_sublist (l := (l.dropWhile isJsWs).reverse) (p := isJsWs)).subset h1
  have h3 := List.mem_reverse.mp h2
  exact (List.dropWhile_sublist (p := isJsWs)).subset h3

theorem splitOnChar_no_sep (sep : Char) (l : List Char) (h : sep ∉ l) :
    splitOnChar sep l = [l] := by
  induction l with
  | nil => rfl
  | cons c cs ih =>
    have hc : c ≠ sep := fun hc => h (hc ▸ List.mem_cons_self c cs)
    have ih' := ih (fun hc => h (List.mem_cons_of_mem c hc))
    simp [splitOnChar, hc, ih']

theorem splitOnChar_hit (sep : Char) (xs ys : List Char) (h : sep ∉ xs) :
    splitOnChar sep (xs ++ sep :: ys) = xs :: splitOnChar sep ys := by
  induction xs with
  | nil => simp [splitOnChar]
  | cons c cs ih =>
    have hc : c ≠ sep := fun hc => h (hc ▸ List.mem_cons_self c cs)
    have ih' := ih (fun hc => h (List.mem_cons_of_mem c hc))
    simp [splitOnChar, hc, ih']

/-! ### Token and line lemmas -/

theorem not_ws_digitChar_mem {c : Char} {ds : List (Fin 10)} (h : c ∈ renderDigits ds) :
    isJsWs c = false := by
  simp only [renderDigits, List.mem_map] at h
  obtain ⟨d, _, rfl⟩ := h
  exact digitChar_not_ws d

theorem sepChar_not_ws : ∀ b : Bool, isJsWs (sepChar b) = false := by decide

theorem renderTok_not_ws (t : QtyTok) : ∀ c ∈ renderTok t, isJsWs c = false := by
  intro c hc
  cases t with
  | dec ip sep fp =>
    cases sep with
    | none => exact not_ws_digitChar_mem hc
    | some comma =>
      simp only [renderTok, List.mem_append, List.mem_cons] at hc
      rcases hc with h | h | h
      · exact not_ws_digitChar_mem h
      · rw [h]; exact sepChar_not_ws comma
      · exact not_ws_digitChar_mem h
  | frac n d =>
    simp only [renderTok, List.mem_append, List.mem_cons] at hc
    rcases hc with h | h | h
    · exact not_ws_digitChar_mem h
    · rw [h]; decide
    · exact not_ws_digitChar_mem h

theorem renderTok_ne_nil (t : QtyTok) (h : tokOK t) : renderTok t ≠ [] := by
  cases t with
  | dec ip sep fp =>
    cases sep with
    | none => simp [renderTok, renderDigits, h.1]
    | some comma => simp [renderTok]
  | frac n d => simp [renderTok]

theorem comma_not_mem_renderTok (t : QtyTok) (h : tokComma t = false) :
    ',' ∉ renderTok t := by
  cases t with
  | dec ip sep fp =>
    cases sep with
    | none => exact comma_not_mem_renderDigits ip
    | some comma =>
      cases comma with
      | true => simp [tokComma] at h
      | false =>
        simp only [renderTok, List.mem_append, List.mem_cons, sepChar]
        rintro (h1 | h1 | h1)
        · exact comma_not_mem_renderDigits ip h1
        · simp at h1
        · exact comma_not_mem_renderDigits fp h1
  | frac n d =>
    simp only [renderTok, List.mem_append, List.mem_cons]
    rintro (h1 | h1 | h1)
    · exact comma_not_mem_renderDigits n h1
    · simp at h1
    · exact comma_not_mem_renderDigits d h1

theorem slash_not_mem_renderTok_dec (ip fp : List (Fin 10)) (sep : Option Bool) :
    '/' ∉ renderTok (QtyTok.dec ip sep fp) := by
  cases sep with
  | none => exact slash_not_mem_renderDigits ip
  | some comma =>
    simp only [renderTok, List.mem_append, List.mem_cons]
    rintro (h1 | h1 | h1)
    · exact slash_not_mem_renderDigits ip h1
    · revert h1; cases comma <;> simp [sepChar]
    · exact slash_not_mem_renderDigits fp h1

theorem decommaTok_eq_self (t : QtyTok) (h : tokComma t = false) : decommaTok t = t := by
  cases t with
  | dec ip sep fp =>
    cases sep with
    | none => rfl
    | some comma =>
      cases comma with
      | true => simp [tokComma] at h
      | false => rfl
  | frac n d => rfl

theorem tokOK_decommaTok (t : QtyTok) (h : tokOK t) : tokOK (decommaTok t) := by
  cases t with
  | dec ip sep fp => cases sep <;> exact h
  | frac n d => exact h

theorem tokVal_decommaTok (t : QtyTok) : tokVal (decommaTok t) = tokVal t := by
  cases t with
  | dec ip sep fp => cases sep <;> rfl
  | frac n d => rfl

theorem tokComma_decommaTok (t : QtyTok) : tokComma (decommaTok t) = false := by
  cases t with
  | dec ip sep fp => cases sep <;> rfl
  | frac n d => rfl

theorem isFracTok_decommaTok (t : QtyTok) : isFracTok (decommaTok t) = isFracTok t := by
  cases t with
  | dec ip sep fp => cases sep <;> rfl
  | frac n d => rfl

theorem renderLine_cons (t : QtyTok) (ts : List QtyTok) (h : ts ≠ []) :
    renderLine (t :: ts) = renderTok t ++ ' ' :: renderLine ts := by
  cases ts with
  | nil => exact absurd rfl h
  | cons t2 ts2 => rfl

theorem mem_renderLine {c : Char} :
    ∀ toks : List QtyTok, c ∈ renderLine toks → c = ' ' ∨ ∃ t ∈ toks, c ∈ renderTok t := by
  intro toks
  induction toks with
  | nil => intro h; cases h
  | cons t ts ih =>
    cases ts with
    | nil =>
      intro h
      exact Or.inr ⟨t, List.mem_cons_self _ _, h⟩
    | cons t2 ts2 =>
      rw [renderLine_cons t (t2 :: ts2) (by simp)]
      intro h
      rcases List.mem_append.mp h with h1 | h1
      · exact Or.inr ⟨t, List.mem_cons_self _ _, h1⟩
      · rcases List.mem_cons.mp h1 with rfl | h2
        · exact Or.inl rfl
        · rcases ih h2 with h3 | ⟨t', ht', hc'⟩
          · exact Or.inl h3
          · exact Or.inr ⟨t', List.mem_cons_of_mem _ ht', hc'⟩

theorem mem_renderLine_of_mem {c : Char} {t : QtyTok} :
    ∀ toks : List QtyTok, t ∈ toks → c ∈ renderTok t → c ∈ renderLine toks := by
  intro toks
  induction toks with
  | nil => intro h; cases h
  | cons t0 ts ih =>
    intro ht hc
    cases ts with
    | nil =>
      rcases List.mem_cons.mp ht with rfl | h2
      · exact hc
      · cases h2
    | cons t2 ts2 =>
      rw [renderLine_cons t0 (t2 :: ts2) (by simp)]
      rcases List.mem_cons.mp ht with rfl | h2
      · exact List.mem_append.mpr (Or.inl hc)
      · exact List.mem_append.mpr (Or.inr (List.mem_cons_of_mem _ (ih h2 hc)))

theorem renderLine_ne_nil (toks : List QtyTok) (hne : toks ≠ [])
    (h : ∀ t ∈ toks, tokOK t) : renderLine toks ≠ [] := by
  cases toks with
  | nil => exact absurd rfl hne
  | cons t ts =>
    cases ts with
    | nil => exact renderTok_ne_nil t (h t (List.mem_cons_self _ _))
    | cons t2 ts2 =>
      rw [renderLine_cons t (t2 :: ts2) (by simp)]
      simp

theorem head?_append_of_ne_nil (l₁ l₂ : List Char) (h : l₁ ≠ []) :
    (l₁ ++ l₂).head? = l₁.head? := by
  cases l₁ with
  | nil => exact absurd rfl h
  | cons c cs => rfl

theorem renderLine_head_not_ws (toks : List QtyTok) (h : ∀ t ∈ toks, tokOK t) :
    ∀ c, (renderLine toks).head? = some c → isJsWs c = false := by
  intro c hc
  cases toks with
  | nil => cases hc
  | cons t ts =>
    have hne := renderTok_ne_nil t (h t (List.mem_cons_self _ _))
    cases ts with
    | nil =>
      exact renderTok_not_ws t c (mem_of_head? hc)
    | cons t2 ts2 =>
      rw [renderLine_cons t (t2 :: ts2) (by simp),
        head?_append_of_ne_nil _ _ hne] at hc
      exact renderTok_not_ws t c (mem_of_head? hc)

theorem renderLine_revhead_not_ws :
    ∀ toks : List QtyTok, (∀ t ∈ toks, tokOK t) →
      ∀ c, (renderLine toks).reverse.head? = some c → isJsWs c = false := by
  intro toks
  induction toks with
  | nil => intro _ c hc; cases hc
  | cons t ts ih =>
    intro h c hc
    cases ts with
    | nil =>
      have := List.mem_reverse.mp (mem_of_head? hc)
      exact renderTok_not_ws t c this
    | cons t2 ts2 =>
      rw [renderLine_cons t (t2 :: ts2) (by simp)] at hc
      have hts : ∀ t' ∈ t2 :: ts2, tokOK t' := fun t' ht' => h t' (List.mem_cons_of_mem _ ht')
      have hrn : (renderLine (t2 :: ts2)).reverse ≠ [] := by
        simp only [ne_eq, List.reverse_eq_nil_iff]
        exact renderLine_ne_nil _ (by simp) hts
      rw [List.reverse_append, List.reverse_cons,
        head?_append_of_ne_nil _ _ (by simp [hrn])] at hc
      rw [head?_append_of_ne_nil _ _ hrn] at hc
      exact ih hts c hc

theorem jsSplitWs_cons_not_ws (c : Char) (cs : List Char) (hc : isJsWs c = false) :
    jsSplitWs (c :: cs) =
      match jsSplitWs cs with
      | s :: rest => (c :: s) :: rest
      | [] => [[c]] := by
  simp [jsSplitWs, hc]

theorem jsSplitWs_single :
    ∀ part : List Char, part ≠ [] → (∀ c ∈ part, isJsWs c = false) →
      jsSplitWs part = [part] := by
  intro part
  induction part with
  | nil => intro h; exact absurd rfl h
  | cons c cs ih =>
    intro _ hws
    have hc : isJsWs c = false := hws c (List.mem_cons_self _ _)
    cases cs with
    | nil => simp [jsSplitWs, hc]
    | cons c2 cs2 =>
      have ih' := ih (by simp) (fun x hx => hws x (List.mem_cons_of_mem _ hx))
      rw [jsSplitWs_cons_not_ws c _ hc, ih']

theorem jsSplitWs_sep_append :
    ∀ part rest : List Char, (∀ c ∈ part, isJsWs c = false) →
      (∀ c, rest.head? = some c → isJsWs c = false) →
      jsSplitWs (part ++ ' ' :: rest) = part :: jsSplitWs rest := by
  intro part
  induction part with
  | nil =>
    intro rest _ hrest
    have hsp : isJsWs ' ' = true := by decide
    cases rest with
    | nil => simp [jsSplitWs, hsp]
    | cons c2 cs2 => simp [jsSplitWs, hsp, hrest c2 rfl]
  | cons c cs ih =>
    intro rest hws hrest
    have hc : isJsWs c = false := hws c (List.mem_cons_self _ _)
    have ih' := ih rest (fun x hx => hws x (List.mem_cons_of_mem _ hx)) hrest
    rw [List.cons_append, jsSplitWs_cons_not_ws c _ hc, ih']

theorem jsSplitWs_renderLine :
    ∀ toks : List QtyTok, toks ≠ [] → (∀ t ∈ toks, tokOK t) →
      jsSplitWs (renderLine toks) = toks.map renderTok := by
  intro toks
  induction toks with
  | nil => intro h; exact absurd rfl h
  | cons t ts ih =>
    intro _ h
    cases ts with
    | nil =>
      exact jsSplitWs_single (renderTok t)
        (renderTok_ne_nil t (h t (List.mem_cons_self _ _)))
        (renderTok_not_ws t)
    | cons t2 ts2 =>
      have hts : ∀ t' ∈ t2 :: ts2, tokOK t' := fun t' ht' => h t' (List.mem_cons_of_mem _ ht')
      rw [renderLine_cons t (t2 :: ts2) (by simp),
        jsSplitWs_sep_append (renderTok t) (renderLine (t2 :: ts2)) (renderTok_not_ws t)
          (renderLine_head_not_ws (t2 :: ts2) hts),
        ih (by simp) hts]
      rfl

/-! ### parseFloat round-trip lemmas -/

theorem digitChar_ne_I : ∀ d : Fin 10, ('I' : Char) ≠ digitChar d := by decide

theorem isDigitCh_dot : isDigitCh '.' = false := by decide

theorem parseFloatL_renderInt (ds : List (Fin 10)) (h : ds ≠ []) :
    parseFloatL (renderDigits ds) = JSNum.fin ((digitsVal ds : Rat)) := by
  obtain ⟨d, ds', rfl⟩ : ∃ d ds', ds = d :: ds' := by
    cases ds with
    | nil => exact absurd rfl h
    | cons d ds' => exact ⟨d, ds', rfl⟩
  have hdrop : (renderDigits (d :: ds')).dropWhile isJsWs = renderDigits (d :: ds') := by
    simpa using dropWhile_ws_digits (d :: ds') []
  have hsign : readSign (renderDigits (d :: ds')) = (false, renderDigits (d :: ds')) := by
    simpa using readSign_digits (d :: ds') [] (by simp)
  have hInf : startsWithCS ("Infinity".data) (renderDigits (d :: ds')) = false := by
    rw [show ("Infinity".data) = 'I' :: ("nfinity".data) from rfl,
      show renderDigits (d :: ds') = digitChar d :: renderDigits ds' from rfl]
    simp [startsWithCS, digitChar_ne_I d]
  have hTW := takeWhile_digits_all (d :: ds')
  have hDW : (renderDigits (d :: ds')).dropWhile isDigitCh = [] := by
    simpa using dropWhile_digits_append (d :: ds') []
  have hNN : renderDigits (d :: ds') ≠ [] := by simp [renderDigits]
  simp only [parseFloatL, hdrop, hsign, hInf, hTW, hDW, Bool.false_eq_true, if_false]
  simp [hNN, readExp, digitsValC_render, digitsValC_map,
    show digitsValC [] = 0 from rfl]

theorem parseFloatL_renderDec (ip fp : List (Fin 10)) (h : ip ≠ [] ∨ fp ≠ []) :
    parseFloatL (renderDigits ip ++ '.' :: renderDigits fp) = JSNum.fin (decVal ip fp) := by
  have hdrop : (renderDigits ip ++ '.' :: renderDigits fp).dropWhile isJsWs =
      renderDigits ip ++ '.' :: renderDigits fp := by
    apply dropWhile_eq_self_of_head
    intro c hc
    cases ip with
    | nil =>
      simp only [renderDigits, List.map_nil, List.nil_append, List.head?_cons,
        Option.some.injEq] at hc
      rw [← hc]; decide
    | cons d0 ds0 =>
      rw [show renderDigits (d0 :: ds0) ++ '.' :: renderDigits fp =
        digitChar d0 :: (renderDigits ds0 ++ '.' :: renderDigits fp) from rfl] at hc
      simp only [List.head?_cons, Option.some.injEq] at hc
      rw [← hc]; exact digitChar_not_ws d0
  have hsign : readSign (renderDigits ip ++ '.' :: renderDigits fp) =
      (false, renderDigits ip ++ '.' :: renderDigits fp) := by
    cases ip with
    | nil => simp [renderDigits, readSign]
    | cons d0 ds0 => exact readSign_digits (d0 :: ds0) ('.' :: renderDigits fp) (by simp)
  have hInf : startsWithCS ("Infinity".data) (renderDigits ip ++ '.' :: renderDigits fp) =
      false := by
    cases ip with
    | nil =>
      rw [show ("Infinity".data) = 'I' :: ("nfinity".data) from rfl]
      simp [renderDigits, startsWithCS]
    | cons d0 ds0 =>
      rw [show ("Infinity".data) = 'I' :: ("nfinity".data) from rfl,
        show renderDigits (d0 :: ds0) ++ '.' :: renderDigits fp =
          digitChar d0 :: (renderDigits ds0 ++ '.' :: renderDigits fp) from rfl]
      simp [startsWithCS, digitChar_ne_I d0]
  have hTW : (renderDigits ip ++ '.' :: renderDigits fp).takeWhile isDigitCh =
      renderDigits ip := by
    rw [takeWhile_digits_append]
    rw [takeWhile_not_digit_head _ (fun c hc => by
      simp only [List.head?_cons, Option.some.injEq] at hc
      rw [← hc]; exact isDigitCh_dot)]
    exact List.append_nil _
  have hDW : (renderDigits ip ++ '.' :: renderDigits fp).dropWhile isDigitCh =
      '.' :: renderDigits fp := by
    rw [dropWhile_digits_append]
    exact dropWhile_not_digit_head _ (fun c hc => by
      simp only [List.head?_cons, Option.some.injEq] at hc
      rw [← hc]; exact isDigitCh_dot)
  have hNN : ¬ (renderDigits ip = [] ∧ renderDigits fp = []) := by
    rcases h with h | h
    · intro hx
      exact h (by simpa [renderDigits] using hx.1)
    · intro hx
      exact h (by simpa [renderDigits] using hx.2)
  have hTWfp := takeWhile_digits_all fp
  have hDWfp : (renderDigits fp).dropWhile isDigitCh = [] := by
    simpa using dropWhile_digits_append fp []
  simp only [parseFloatL, hdrop, hsign, hInf, hTW, hDW, Bool.false_eq_true, if_false,
    hTWfp, hDWfp]
  simp only [hNN, if_false]
  simp [readExp, digitsValC_render, digitsValC_map, decVal, renderDigits]

/-! ### Per-token and whole-line parseQuantity lemmas -/

theorem parseQuantityTok_val (t : QtyTok) (h : tokOK t) (hc : tokComma t = false) :
    parseQuantityTok (renderTok t) = JSNum.fin (tokVal t) := by
  cases t with
  | frac n d =>
    obtain ⟨hn, hd, hdv⟩ := h
    have hcon : (renderTok (QtyTok.frac n d)).contains '/' = true :=
      (contains_iff_mem _ _).mpr (by simp [renderTok])
    have hsplit : splitOnChar '/' (renderTok (QtyTok.frac n d)) =
        [renderDigits n, renderDigits d] := by
      rw [show renderTok (QtyTok.frac n d) = renderDigits n ++ '/' :: renderDigits d from rfl,
        splitOnChar_hit '/' _ _ (slash_not_mem_renderDigits n),
        splitOnChar_no_sep '/' _ (slash_not_mem_renderDigits d)]
    simp only [parseQuantityTok, hcon, if_true, hsplit]
    rw [parseIntL_renderDigits n hn, parseIntL_renderDigits d hd]
    have hdv' : ((digitsVal d : Rat)) ≠ 0 := Nat.cast_ne_zero.mpr hdv
    simp [jsDiv, hdv', tokVal]
  | dec ip sep fp =>
    have hcon : (renderTok (QtyTok.dec ip sep fp)).contains '/' = false := by
      have hx : ¬ ((renderTok (QtyTok.dec ip sep fp)).contains '/' = true) :=
        fun hx => slash_not_mem_renderTok_dec ip fp sep ((contains_iff_mem _ _).mp hx)
      rw [Bool.not_eq_true] at hx
      exact hx
    cases sep with
    | none =>
      obtain ⟨hip, _⟩ := h
      simp only [parseQuantityTok, hcon, Bool.false_eq_true, if_false]
      rw [show renderTok (QtyTok.dec ip none fp) = renderDigits ip from rfl,
        parseFloatL_renderInt ip hip]
      by_cases hz : ((digitsVal ip : Rat)) = 0
      · simp [jsTruthy, hz, tokVal]
      · simp [jsTruthy, hz, tokVal]
    | some b =>
      have hb : b = false := by
        cases b with
        | true => simp [tokComma] at hc
        | false => rfl
      subst hb
      simp only [parseQuantityTok, hcon, Bool.false_eq_true, if_false]
      rw [show renderTok (QtyTok.dec ip (some false) fp) =
        renderDigits ip ++ '.' :: renderDigits fp from rfl,
        parseFloatL_renderDec ip fp h]
      by_cases hz : decVal ip fp = 0
      · simp [jsTruthy, hz, tokVal]
      · simp [jsTruthy, hz, tokVal]

theorem map_decommaTok_eq_self (ts : List QtyTok) (h : ∀ t ∈ ts, tokComma t = false) :
    ts.map decommaTok = ts := by
  induction ts with
  | nil => rfl
  | cons t ts ih =>
    rw [List.map_cons, decommaTok_eq_self t (h t (List.mem_cons_self _ _)),
      ih (fun t' ht' => h t' (List.mem_cons_of_mem _ ht'))]

theorem replaceFirst_renderLine :
    ∀ toks : List QtyTok, toks.countP tokComma ≤ 1 →
      replaceFirst ',' '.' (renderLine toks) = renderLine (toks.map decommaTok) := by
  intro toks
  induction toks with
  | nil => intro _; rfl
  | cons t ts ih =>
    intro hcount
    by_cases hct : tokComma t = true
    · have hts0 : ts.countP tokComma = 0 := by
        rw [List.countP_cons, hct] at hcount
        simp only [eq_self_iff_true, if_true] at hcount
        omega
      have htsfree : ∀ t' ∈ ts, tokComma t' = false := by
        intro t' ht'
        by_contra hx
        rw [Bool.not_eq_false] at hx
        have : 0 < ts.countP tokComma := List.countP_pos_iff.mpr ⟨t', ht', hx⟩
        omega
      have hmap : ts.map decommaTok = ts := map_decommaTok_eq_self ts htsfree
      obtain ⟨ip, fp, rfl⟩ : ∃ ip fp, t = QtyTok.dec ip (some true) fp := by
        cases t with
        | dec ip sep fp =>
          cases sep with
          | none => simp [tokComma] at hct
          | some b =>
            cases b with
            | true => exact ⟨ip, fp, rfl⟩
            | false => simp [tokComma] at hct
        | frac n d => simp [tokComma] at hct
      cases ts with
      | nil =>
        show replaceFirst ',' '.' (renderTok _) = renderTok _
        rw [show renderTok (QtyTok.dec ip (some true) fp) =
          renderDigits ip ++ ',' :: renderDigits fp from rfl,
          replaceFirst_hit ',' '.' _ _ (comma_not_mem_renderDigits ip)]
        rfl
      | cons t2 ts2 =>
        rw [renderLine_cons _ (t2 :: ts2) (by simp), List.map_cons, hmap,
          renderLine_cons _ (t2 :: ts2) (by simp)]
        rw [show renderTok (QtyTok.dec ip (some true) fp) =
          renderDigits ip ++ ',' :: renderDigits fp from rfl]
        rw [List.append_assoc, List.cons_append,
          replaceFirst_hit ',' '.' _ _ (comma_not_mem_renderDigits ip)]
        rw [show renderTok (decommaTok (QtyTok.dec ip (some true) fp)) =
          renderDigits ip ++ '.' :: renderDigits fp from rfl]
        simp
    · have hct' : tokComma t = false := by
        rw [Bool.not_eq_true] at hct
        exact hct
      have hcount' : ts.countP tokComma ≤ 1 := by
        simp only [List.countP_cons, hct'] at hcount
        omega
      cases ts with
      | nil =>
        show replaceFirst ',' '.' (renderTok t) = renderLine [decommaTok t]
        rw [replaceFirst_not_mem _ _ _ (comma_not_mem_renderTok t hct'),
          decommaTok_eq_self t hct']
        rfl
      | cons t2 ts2 =>
        rw [renderLine_cons _ (t2 :: ts2) (by simp),
          replaceFirst_append_not_mem _ _ _ _ (comma_not_mem_renderTok t hct'),
          show replaceFirst ',' '.' (' ' :: renderLine (t2 :: ts2)) =
            ' ' :: replaceFirst ',' '.' (renderLine (t2 :: ts2)) from by simp [replaceFirst],
          ih hcount',
          show List.map decommaTok (t :: t2 :: ts2) =
            decommaTok t :: List.map decommaTok (t2 :: ts2) from rfl,
          decommaTok_eq_self t hct',
          renderLine_cons t (List.map decommaTok (t2 :: ts2)) (by simp)]

theorem parseQuantity_foldl :
    ∀ (toks : List QtyTok), (∀ t ∈ toks, tokOK t) → ∀ acc : Rat,
      (toks.map (fun t => renderTok (decommaTok t))).foldl
        (fun total part => jsAdd total (parseQuantityTok part)) (JSNum.fin acc) =
      JSNum.fin (acc + (toks.map tokVal).sum) := by
  intro toks
  induction toks with
  | nil => intro _ acc; simp
  | cons t ts ih =>
    intro h acc
    simp only [List.map_cons, List.foldl_cons]
    rw [parseQuantityTok_val (decommaTok t)
      (tokOK_decommaTok t (h t (List.mem_cons_self _ _))) (tokComma_decommaTok t)]
    rw [show jsAdd (JSNum.fin acc) (JSNum.fin (tokVal (decommaTok t))) =
      JSNum.fin (acc + tokVal (decommaTok t)) from rfl]
    rw [ih (fun t' ht' => h t' (List.mem_cons_of_mem _ ht')) _]
    rw [tokVal_decommaTok]
    simp [List.sum_cons]
    ring_nf

/-- Counterexample to claim C4 as stated: the zero-valued decimal `"0.0"`
parses to the fallback 1 instead of its value 0 (`parseFloat("0.0")` is 0,
which is falsy, so `|| 1` fires); and the unparseable slash text `"a/b"`
yields NaN instead of the documented fallback 1 (the fraction branch has no
`|| 1` guard). -/
theorem claim_C4_counterexample :
    parseQuantity "0.0" = JSNum.fin 1 ∧
      parseQuantity "0.0" ≠ JSNum.fin 0 ∧
      parseQuantity "a/b" = JSNum.nan ∧
      parseQuantity "a/b" ≠ JSNum.fin 1 := by
  have e : "0.0".data = renderDigits [(0 : Fin 10)] ++ '.' :: renderDigits [(0 : Fin 10)] := by
    decide
  have h1 : replaceFirst ',' '.' "0.0".data = "0.0".data := by decide
  have h2 : jsTrim "0.0".data = "0.0".data := by decide
  have h3 : "0.0".data.contains '/' = false := by decide
  have h4 : parseFloatL "0.0".data = JSNum.fin (decVal [(0 : Fin 10)] [(0 : Fin 10)]) := by
    rw [e]
    exact parseFloatL_renderDec _ _ (Or.inl (by decide))
  have h5 : decVal [(0 : Fin 10)] [(0 : Fin 10)] = 0 := by
    norm_num [decVal, show digitsVal [(0 : Fin 10)] = 0 from by decide]
  have hmain : parseQuantity "0.0" = JSNum.fin 1 := by
    simp only [parseQuantity, h1, h2, h3, Bool.false_eq_true, if_false, h4, h5]
    simp [jsTruthy]
  refine ⟨hmain, ?_, by decide, by decide⟩
  rw [hmain]
  intro hx
  have := (JSNum.fin.injEq _ _).mp hx
  norm_num at this

/-- Claim C4 (amended): `parseQuantity` never throws and returns the correct
value for non-zero decimal numbers written with `.` or `,` (zero-valued
plain decimals fall back on 1); the correct sum of whitespace-separated
tokens for mixed-number fractions whose tokens are well-formed (denominators
non-zero) with at most one comma in the whole text; and 1 for slash-free
text that `parseFloat` cannot parse at all (slash-containing unparseable
text yields NaN instead). -/
theorem claim_C4_parseQuantity :
    (∀ ds : List (Fin 10), ds ≠ [] → digitsVal ds ≠ 0 →
      parseQuantity (String.mk (renderDigits ds)) = JSNum.fin ((digitsVal ds : Rat))) ∧
    (∀ (ip fp : List (Fin 10)) (comma : Bool), (ip ≠ [] ∨ fp ≠ []) → decVal ip fp ≠ 0 →
      parseQuantity (String.mk (renderTok (QtyTok.dec ip (some comma) fp))) =
        JSNum.fin (decVal ip fp)) ∧
    (∀ toks : List QtyTok, (∀ t ∈ toks, tokOK t) → toks.countP tokComma ≤ 1 →
      toks.any isFracTok = true →
      parseQuantity (String.mk (renderLine toks)) = JSNum.fin ((toks.map tokVal).sum)) ∧
    (∀ s : String, '/' ∉ s.data →
      parseFloatL (jsTrim (replaceFirst ',' '.' s.data)) = JSNum.nan →
      parseQuantity s = JSNum.fin 1) := by
  refine ⟨?_, ?_, ?_, ?_⟩
  · intro ds hne hval
    have h1 : replaceFirst ',' '.' (renderDigits ds) = renderDigits ds :=
      replaceFirst_not_mem _ _ _ (comma_not_mem_renderDigits ds)
    have h2 : jsTrim (renderDigits ds) = renderDigits ds :=
      jsTrim_eq_self_of_all _ (fun c hc => not_ws_digitChar_mem hc)
    have h3 : (renderDigits ds).contains '/' = false := by
      have hx : ¬ ((renderDigits ds).contains '/' = true) :=
        fun hx => slash_not_mem_renderDigits ds ((contains_iff_mem _ _).mp hx)
      rw [Bool.not_eq_true] at hx
      exact hx
    have h4 := parseFloatL_renderInt ds hne
    have h5 : ((digitsVal ds : Rat)) ≠ 0 := Nat.cast_ne_zero.mpr hval
    simp only [parseQuantity, show (String.mk (renderDigits ds)).data = renderDigits ds
      from rfl, h1, h2, h3, Bool.false_eq_true, if_false, h4]
    simp [jsTruthy, h5]
  · intro ip fp comma h hval
    have hc1 : List.countP tokComma [QtyTok.dec ip (some comma) fp] ≤ 1 := by
      have := List.countP_le_length (p := tokComma) (l := [QtyTok.dec ip (some comma) fp])
      simpa using this
    have h1 : replaceFirst ',' '.' (renderTok (QtyTok.dec ip (some comma) fp)) =
        renderTok (QtyTok.dec ip (some false) fp) := by
      have := replaceFirst_renderLine [QtyTok.dec ip (some comma) fp] hc1
      simpa [renderLine, decommaTok] using this
    have h2 : jsTrim (renderTok (QtyTok.dec ip (some false) fp)) =
        renderTok (QtyTok.dec ip (some false) fp) :=
      jsTrim_eq_self_of_all _ (renderTok_not_ws _)
    have h3 : (renderTok (QtyTok.dec ip (some false) fp)).contains '/' = false := by
      have hx : ¬ ((renderTok (QtyTok.dec ip (some false) fp)).contains '/' = true) :=
        fun hx => slash_not_mem_renderTok_dec ip fp (some false) ((contains_iff_mem _ _).mp hx)
      rw [Bool.not_eq_true] at hx
      exact hx
    have h4 : parseFloatL (renderTok (QtyTok.dec ip (some false) fp)) =
        JSNum.fin (decVal ip fp) := by
      rw [show renderTok (QtyTok.dec ip (some false) fp) =
        renderDigits ip ++ '.' :: renderDigits fp from rfl]
      exact parseFloatL_renderDec ip fp h
    simp only [parseQuantity, show (String.mk (renderTok (QtyTok.dec ip (some comma) fp))).data =
      renderTok (QtyTok.dec ip (some comma) fp) from rfl, h1, h2, h3,
      Bool.false_eq_true, if_false, h4]
    simp [jsTruthy, hval]
  · intro toks hok hcomma hfrac
    have hne : toks ≠ [] := by rintro rfl; simp at hfrac
    have hok' : ∀ t ∈ toks.map decommaTok, tokOK t := by
      intro t' ht'
      obtain ⟨t, ht, rfl⟩ := List.mem_map.mp ht'
      exact tokOK_decommaTok t (hok t ht)
    have hne' : toks.map decommaTok ≠ [] := by simpa using hne
    have h1 : replaceFirst ',' '.' (renderLine toks) = renderLine (toks.map decommaTok) :=
      replaceFirst_renderLine toks hcomma
    have h2 : jsTrim (renderLine (toks.map decommaTok)) = renderLine (toks.map decommaTok) :=
      jsTrim_eq_self _ (renderLine_head_not_ws _ hok') (renderLine_revhead_not_ws _ hok')
    have h3 : (renderLine (toks.map decommaTok)).contains '/' = true := by
      obtain ⟨t, ht, hft⟩ := List.any_eq_true.mp hfrac
      obtain ⟨n, dn, rfl⟩ : ∃ n dn, t = QtyTok.frac n dn := by
        cases t with
        | dec ip sep fp => simp [isFracTok] at hft
        | frac n dn => exact ⟨n, dn, rfl⟩
      refine (contains_iff_mem _ _).mpr ?_
      refine mem_renderLine_of_mem (t := QtyTok.frac n dn) _ ?_ ?_
      · exact List.mem_map.mpr ⟨QtyTok.frac n dn, ht, rfl⟩
      · simp [renderTok]
    have h4 := jsSplitWs_renderLine (toks.map decommaTok) hne' hok'
    have h5 := parseQuantity_foldl toks hok 0
    simp only [parseQuantity, show (String.mk (renderLine toks)).data = renderLine toks
      from rfl, h1, h2, h3, if_true, h4]
    rw [show (toks.map decommaTok).map renderTok =
      toks.map (fun t => renderTok (decommaTok t)) from by rw [List.map_map]; rfl, h5]
    norm_num
  · intro s hs hnan
    have h3 : (jsTrim (replaceFirst ',' '.' s.data)).contains '/' = false := by
      have hx : ¬ ((jsTrim (replaceFirst ',' '.' s.data)).contains '/' = true) := by
        intro hx
        have hm := mem_of_mem_jsTrim ((contains_iff_mem _ _).mp hx)
        rcases mem_replaceFirst _ hm with h | h
        · exact hs h
        · exact absurd h (by decide)
      rw [Bool.not_eq_true] at hx
      exact hx
    simp only [parseQuantity, h3, Bool.false_eq_true, if_false, hnan]
    rfl

/-- Witness for claim C4 on concrete quantity strings: an integer, a comma
decimal, a mixed fraction, and unparseable text. -/
theorem claim_C4_witness :
    parseQuantity "200" = JSNum.fin 200 ∧
      parseQuantity "2,5" = JSNum.fin ((5 : Rat) / 2) ∧
      parseQuantity "1 1/2" = JSNum.fin ((3 : Rat) / 2) ∧
      parseQuantity "abc" = JSNum.fin 1 := by
  refine ⟨?_, ?_, ?_, ?_⟩
  · have h := claim_C4_parseQuantity.1 [(2 : Fin 10), 0, 0] (by decide) (by decide)
    rw [show String.mk (renderDigits [(2 : Fin 10), 0, 0]) = "200" from by decide] at h
    rw [h]
    norm_num [show digitsVal [(2 : Fin 10), 0, 0] = 200 from by decide]
  · have h := claim_C4_parseQuantity.2.1 [(2 : Fin 10)] [(5 : Fin 10)] true
      (Or.inl (by decide))
      (by norm_num [decVal, show digitsVal [(2 : Fin 10)] = 2 from by decide,
        show digitsVal [(5 : Fin 10)] = 5 from by decide])
    rw [show String.mk (renderTok (QtyTok.dec [(2 : Fin 10)] (some true) [(5 : Fin 10)])) =
      "2,5" from by decide] at h
    rw [h]
    norm_num [decVal, show digitsVal [(2 : Fin 10)] = 2 from by decide,
      show digitsVal [(5 : Fin 10)] = 5 from by decide]
  · have h := claim_C4_parseQuantity.2.2.1
      [QtyTok.dec [(1 : Fin 10)] none [], QtyTok.frac [(1 : Fin 10)] [(2 : Fin 10)]]
      (by
        intro t ht
        rcases List.mem_cons.mp ht with rfl | ht2
        · exact ⟨by decide, rfl⟩
        · rcases List.mem_cons.mp ht2 with rfl | ht3
          · exact ⟨by decide, by decide, by decide⟩
          · cases ht3)
      (by decide) (by decide)
    rw [show String.mk (renderLine
      [QtyTok.dec [(1 : Fin 10)] none [], QtyTok.frac [(1 : Fin 10)] [(2 : Fin 10)]]) =
      "1 1/2" from by decide] at h
    rw [h]
    norm_num [tokVal, show digitsVal [(1 : Fin 10)] = 1 from by decide,
      show digitsVal [(2 : Fin 10)] = 2 from by decide]
  · exact claim_C4_parseQuantity.2.2.2 "abc" (by decide) (by decide)

end Recettes
